import Mathlib

/-!
The game virgame: board, legal moves and turn control.

A shallow embedding of `main.go`.  Go slices are lists, Go `int` variables are
integers, and the two run-time failures the code can hit (an index out of
range, a nil pointer dereference) are explicit in the `Except` result.

Pointers.  `InitGame` allocates one `FieldTile` per grid cell and never
shares or moves them, so a `*FieldTile` is represented by the grid position
`(x, y)` of the cell that holds it, and the grid itself is the heap: reading
through a pointer is `deref`, writing `p.image = f` is `setImage`.  A nil
`*FieldTile` or `*FrameType` is `none`.

Numbers.  The `float64` screen coordinates only ever hold the integers
`x * tileSize`, which `float64` represents exactly, so they are integers
here.  The turn counters are only decremented under a `> 0` guard, so they
are unbounded integers; the frame counter `count` is incremented for ever and
wraps like a 64-bit Go `int`.

Inputs.  `ebiten.IsMouseButtonPressed`, `ebiten.CursorPosition` and the value
drawn by `rand.Intn` are parameters of `Draw`.
-/

namespace VirGame

/-! ## Data model -/

/-- Run-time failures of the Go program. -/
inductive Panic where
  | indexOutOfRange
  | nilDereference
  deriving DecidableEq, Repr

/-- The Go struct `FrameType`. -/
structure FrameType where
  name : String
  imageFrameX : Int
  imageFrameY : Int
  framesCount : Int
  isAlive : Bool
  deriving DecidableEq, Repr

/-- The Go struct `FieldTile`; `image` is a `*FrameType`. -/
structure FieldTile where
  xLocation : Int
  yLocation : Int
  xScreenCoord : Int
  yScreenCoord : Int
  image : Option FrameType
  deriving DecidableEq, Repr

/-- The Go struct `Game`; `fieldTiles` is a `[][]*FieldTile`. -/
structure Game where
  count : Int
  fieldTiles : List (List (Option FieldTile))
  playerTurns : Int
  enemyTurns : Int
  deriving DecidableEq, Repr

/-- A `*FieldTile` that points into the grid: the position of its cell. -/
abbrev TilePtr := Int × Int

def fieldScreenCoordX : Int := 10
def fieldScreenCoordY : Int := 10
def fieldWidth : Nat := 5
def fieldHeight : Nat := 6
def tileSize : Int := 32

def NeutralFrames : FrameType :=
  { name := "neutral", imageFrameX := 0, imageFrameY := 0, framesCount := 1, isAlive := false }

def PlayerFrames : FrameType :=
  { name := "player", imageFrameX := 0, imageFrameY := 200, framesCount := 3, isAlive := true }

def EnemyFrames : FrameType :=
  { name := "enemy", imageFrameX := 0, imageFrameY := 160, framesCount := 3, isAlive := true }

deriving instance DecidableEq for Except

/-! ## Slice and pointer primitives -/

/-- Go's `s[i]`: panics when `i` is outside `0 .. len(s) - 1`. -/
def index {α : Type} (s : List α) (i : Int) : Except Panic α :=
  if i < 0 then .error .indexOutOfRange
  else
    match s[i.toNat]? with
    | some a => .ok a
    | none => .error .indexOutOfRange

/-- The expression `game.fieldTiles[x][y]`, a possibly nil `*FieldTile`. -/
def tileAt (game : Game) (x y : Int) : Except Panic (Option FieldTile) := do
  let row ← index game.fieldTiles x
  index row y

/-- Reading through a `*FieldTile` that points at cell `p`. -/
def deref (game : Game) (p : TilePtr) : Except Panic FieldTile := do
  match ← tileAt game p.1 p.2 with
  | some t => pure t
  | none => throw .nilDereference

/-- The expression `tile.image.name` for a possibly nil `tile`. -/
def imageName (tile : Option FieldTile) : Except Panic String :=
  match tile with
  | none => .error .nilDereference
  | some t =>
    match t.image with
    | none => .error .nilDereference
    | some f => .ok f.name

/-- The assignment `game.fieldTiles[x][y].image = frame`. -/
def setImage (game : Game) (x y : Int) (frame : FrameType) : Except Panic Game := do
  let row ← index game.fieldTiles x
  match ← index row y with
  | none => throw .nilDereference
  | some t =>
    pure { game with
      fieldTiles := game.fieldTiles.set x.toNat (row.set y.toNat (some { t with image := some frame })) }

/-! ## InitGame -/

/-- The inner loop of `InitGame`: the column `temp` for a given `x`. -/
def initColumn (x : Nat) : List (Option FieldTile) :=
  (List.range fieldHeight).foldl
    (fun temp y =>
      temp ++ [some { xScreenCoord := (x : Int) * tileSize, yScreenCoord := (y : Int) * tileSize,
                      image := some NeutralFrames, xLocation := x, yLocation := y }])
    []

/-- `InitGame` without the asset loading: appends the 5 columns, seeds the two
sides and sets the turn counters. -/
def InitGame (game : Game) : Except Panic Game := do
  let tiles := (List.range fieldWidth).foldl (fun tiles x => tiles ++ [initColumn x]) game.fieldTiles
  let g0 : Game := { game with fieldTiles := tiles }
  let g1 ← setImage g0 2 0 EnemyFrames
  let g2 ← setImage g1 2 ((fieldHeight : Int) - 1) PlayerFrames
  pure { g2 with playerTurns := 0, enemyTurns := 2 }

/-! ## TilesPlayerOrEnemyCanGo -/

/-- One of the four neighbour blocks of `TilesPlayerOrEnemyCanGo`:
`if guard { if nextTile := game.fieldTiles[nx][ny]; nextTile != nil &&
nextTile.image.name == NeutralFrames.name { moveTiles = append(moveTiles, nextTile) } }`. -/
def probe (guard : Bool) (game : Game) (nx ny : Int) (moveTiles : List TilePtr) :
    Except Panic (List TilePtr) := do
  if guard then
    match ← tileAt game nx ny with
    | none => pure moveTiles
    | some t =>
      if (← imageName (some t)) = NeutralFrames.name then pure (moveTiles ++ [(nx, ny)])
      else pure moveTiles
  else pure moveTiles

/-- The body of the inner loop of `TilesPlayerOrEnemyCanGo` for the tile at `(x, y)`. -/
def visit (game : Game) (name : String) (x y : Int) (tile : Option FieldTile)
    (moveTiles : List TilePtr) : Except Panic (List TilePtr) := do
  if (← imageName tile) = name then
    let m1 ← probe (decide (x - 1 ≥ 0)) game (x - 1) y moveTiles
    let m2 ← probe (decide (x + 1 < (fieldWidth : Int))) game (x + 1) y m1
    let m3 ← probe (decide (y - 1 ≥ 0)) game x (y - 1) m2
    probe (decide (y + 1 < (fieldHeight : Int))) game x (y + 1) m3
  else pure moveTiles

/-- The loop `for y, tile := range row`, entered at index `y` with the rest of the row. -/
def tilesRow (game : Game) (name : String) (x : Int) :
    Int → List (Option FieldTile) → List TilePtr → Except Panic (List TilePtr)
  | _, [], moveTiles => pure moveTiles
  | y, tile :: rest, moveTiles => do
    let m ← visit game name x y tile moveTiles
    tilesRow game name x (y + 1) rest m

/-- The loop `for x, row := range game.fieldTiles`, entered at index `x`. -/
def tilesCols (game : Game) (name : String) :
    Int → List (List (Option FieldTile)) → List TilePtr → Except Panic (List TilePtr)
  | _, [], moveTiles => pure moveTiles
  | x, row :: rest, moveTiles => do
    let m ← tilesRow game name x 0 row moveTiles
    tilesCols game name (x + 1) rest m

/-- `TilesPlayerOrEnemyCanGo`: the slice of pointers to the neutral neighbours
of the tiles whose image is called `name`. -/
def TilesPlayerOrEnemyCanGo (game : Game) (name : String) : Except Panic (List TilePtr) :=
  tilesCols game name 0 game.fieldTiles []

/-! ## CanGo, ClickedOnTile, DoEnemyMove -/

/-- `CanGo`: is there an allowed tile with the coordinates of the wanted tile? -/
def CanGo (game : Game) : List TilePtr → TilePtr → Except Panic Bool
  | [], _ => pure false
  | item :: rest, wantedTile => do
    let i ← deref game item
    let w ← deref game wantedTile
    if i.xLocation = w.xLocation ∧ i.yLocation = w.yLocation then pure true
    else CanGo game rest wantedTile

/-- The two nested rectangle tests of `ClickedOnTile`. -/
def inRect (tile : FieldTile) (mouseX mouseY : Int) : Bool :=
  let topTileX := tile.xScreenCoord + fieldScreenCoordX
  let topTileY := tile.yScreenCoord + fieldScreenCoordY
  let lowTileX := tile.xScreenCoord + fieldScreenCoordX + tileSize
  let lowTileY := tile.yScreenCoord + fieldScreenCoordY + tileSize
  (decide (mouseX ≥ topTileX) && decide (mouseX ≤ lowTileX)) &&
    (decide (mouseY ≥ topTileY) && decide (mouseY ≤ lowTileY))

/-- The block of `ClickedOnTile` run on the tile `p` under the mouse, up to its
`return true`: `if CanGo(playerMoveTiles, tile) { tile.image = PlayerFrames;
game.playerTurns-- }`. -/
def clickTile (game : Game) (playerMoveTiles : List TilePtr) (p : TilePtr) : Except Panic Game := do
  if ← CanGo game playerMoveTiles p then
    let g ← setImage game p.1 p.2 PlayerFrames
    pure { g with playerTurns := g.playerTurns - 1 }
  else pure game

/-- The inner loop of `ClickedOnTile` over a column; `some` is an early
`return true` with the game it leaves behind, `none` falls through. -/
def clickRow (game : Game) (playerMoveTiles : List TilePtr) (mouseX mouseY : Int) (x : Int) :
    Int → List (Option FieldTile) → Except Panic (Option Game)
  | _, [] => pure none
  | y, tile :: rest => do
    match tile with
    | none => throw .nilDereference
    | some t =>
      if inRect t mouseX mouseY then
        let g ← clickTile game playerMoveTiles (x, y)
        pure (some g)
      else clickRow game playerMoveTiles mouseX mouseY x (y + 1) rest

/-- The outer loop of `ClickedOnTile`. -/
def clickCols (game : Game) (playerMoveTiles : List TilePtr) (mouseX mouseY : Int) :
    Int → List (List (Option FieldTile)) → Except Panic (Option Game)
  | _, [] => pure none
  | x, row :: rest => do
    match ← clickRow game playerMoveTiles mouseX mouseY x 0 row with
    | some g => pure (some g)
    | none => clickCols game playerMoveTiles mouseX mouseY (x + 1) rest

/-- `ClickedOnTile`: the game after the call and the returned boolean. -/
def ClickedOnTile (game : Game) (mouseX mouseY : Int) : Except Panic (Game × Bool) := do
  let playerMoveTiles ← TilesPlayerOrEnemyCanGo game "player"
  match ← clickCols game playerMoveTiles mouseX mouseY 0 game.fieldTiles with
  | some g => pure (g, true)
  | none => pure (game, false)

/-- The value of `rand.Intn(n)` for `n > 0`: any index below `n`, chosen by `rnd`. -/
def Intn (rnd : Nat) (n : Nat) : Int := ((rnd % n : Nat) : Int)

/-- `DoEnemyMove`, with the random source as a parameter. -/
def DoEnemyMove (game : Game) (rnd : Nat) : Except Panic Game := do
  let enemyMoveTiles ← TilesPlayerOrEnemyCanGo game "enemy"
  let enemyMovesCount := enemyMoveTiles.length
  if enemyMovesCount > 0 then
    let p ← index enemyMoveTiles (Intn rnd enemyMovesCount)
    setImage game p.1 p.2 EnemyFrames
  else pure game

/-! ## Update and Draw -/

/-- Increment of a 64-bit signed Go `int`. -/
def incr64 (n : Int) : Int := (n + 1 + 2 ^ 63) % 2 ^ 64 - 2 ^ 63

/-- The program state: the `Game` value and the global flag `initialized`. -/
structure World where
  initialized : Bool
  game : Game
  deriving DecidableEq, Repr

/-- `Game.Update`. -/
def Update (w : World) : Except Panic World := do
  let g ← if !w.initialized then InitGame w.game else pure w.game
  pure { initialized := true, game := { g with count := incr64 g.count } }

/-- What one `Draw` call reads from outside the program. -/
structure Input where
  pressed : Bool
  cursorX : Int
  cursorY : Int
  rnd : Nat
  deriving DecidableEq, Repr

/-- `Game.Draw` after its rendering loop, which only reads the game. -/
def Draw (game : Game) (inp : Input) : Except Panic Game := do
  if game.playerTurns > 0 then
    let g ← if inp.pressed then (do let r ← ClickedOnTile game inp.cursorX inp.cursorY; pure r.1)
            else pure game
    pure { g with enemyTurns := 2 }
  else
    if game.enemyTurns > 0 then
      if Int.tmod game.count 15 = 1 then
        let g ← DoEnemyMove game inp.rnd
        pure { g with enemyTurns := g.enemyTurns - 1 }
      else pure game
    else pure { game with playerTurns := 2 }

/-- The value `&Game{}` that `main` hands to ebiten. -/
def emptyGame : Game := { count := 0, fieldTiles := [], playerTurns := 0, enemyTurns := 0 }

/-! ## Well-formed boards and the vocabulary of the specification -/

/-- The check a cell of a well-formed board passes: the lookup succeeds, the
tile is not nil, it carries its own grid position and one of the three frames. -/
def goodCell (x y : Nat) (r : Except Panic (Option FieldTile)) : Bool :=
  match r with
  | .ok (some t) =>
    decide (t.xLocation = x) && decide (t.yLocation = y) &&
      (decide (t.image = some NeutralFrames) || decide (t.image = some PlayerFrames) ||
        decide (t.image = some EnemyFrames))
  | _ => false

/-- A 5x6 board: exactly `fieldWidth` columns of exactly `fieldHeight` tiles,
every tile present, placed at its own coordinates and tagged neutral, player
or enemy. -/
def WellFormed (game : Game) : Prop :=
  game.fieldTiles.length = fieldWidth ∧
  (∀ row ∈ game.fieldTiles, row.length = fieldHeight) ∧
  ∀ x, x < fieldWidth → ∀ y, y < fieldHeight → goodCell x y (tileAt game x y) = true

instance (game : Game) : Decidable (WellFormed game) := by
  unfold WellFormed; infer_instance

/-- Grid bounds: `0 <= x < fieldWidth` and `0 <= y < fieldHeight`. -/
def inGrid (x y : Int) : Prop := 0 ≤ x ∧ x < (fieldWidth : Int) ∧ 0 ≤ y ∧ y < (fieldHeight : Int)

instance (x y : Int) : Decidable (inGrid x y) := by
  unfold inGrid; infer_instance

/-- The occupant tag of the cell `(x, y)`: the name of its tile's image, and
`none` where there is no such tile. -/
def occupant (game : Game) (x y : Int) : Option String :=
  match tileAt game x y with
  | .ok (some t) => t.image.map (fun f => f.name)
  | _ => none

/-- The cell `(x, y)` is inside the grid and carries the tag `name`. -/
def sideAt (game : Game) (name : String) (x y : Int) : Prop :=
  inGrid x y ∧ occupant game x y = some name

instance (game : Game) (name : String) (x y : Int) : Decidable (sideAt game name x y) := by
  unfold sideAt; infer_instance

/-- One of the four orthogonal neighbours of `(x, y)` is inside the grid and
carries the tag `name`. -/
def adjacentToSide (game : Game) (name : String) (x y : Int) : Prop :=
  sideAt game name (x - 1) y ∨ sideAt game name (x + 1) y ∨
    sideAt game name x (y - 1) ∨ sideAt game name x (y + 1)

instance (game : Game) (name : String) (x y : Int) : Decidable (adjacentToSide game name x y) := by
  unfold adjacentToSide; infer_instance

/-- Legal destination of the glossary: an empty cell of the grid orthogonally
adjacent to a cell owned by the side. -/
def legalDestination (game : Game) (name : String) (x y : Int) : Prop :=
  inGrid x y ∧ occupant game x y = some NeutralFrames.name ∧ adjacentToSide game name x y

instance (game : Game) (name : String) (x y : Int) :
    Decidable (legalDestination game name x y) := by
  unfold legalDestination; infer_instance

/-- The facts a well-formed board gives about one cell of the grid. -/
structure CellFacts (game : Game) (x y : Nat) (row : List (Option FieldTile)) (t : FieldTile)
    (f : FrameType) : Prop where
  hx : x < game.fieldTiles.length
  hrow : game.fieldTiles.get ⟨x, hx⟩ = row
  hy : y < row.length
  htile : row.get ⟨y, hy⟩ = some t
  hat : tileAt game x y = .ok (some t)
  hxl : t.xLocation = x
  hyl : t.yLocation = y
  himg : t.image = some f
  hframe : f = NeutralFrames ∨ f = PlayerFrames ∨ f = EnemyFrames

/-- The pointer appended by one neighbour test, if any. -/
def keep (game : Game) (p : TilePtr) : List TilePtr :=
  if occupant game p.1 p.2 = some NeutralFrames.name then [p] else []

/-- The pointers the loop body appends for the tile at `(x, y)`. -/
def neutralNeighbours (game : Game) (name : String) (x y : Int) : List TilePtr :=
  if occupant game x y = some name then
    keep game (x - 1, y) ++ keep game (x + 1, y) ++ keep game (x, y - 1) ++ keep game (x, y + 1)
  else []

/-- The slice `TilesPlayerOrEnemyCanGo` builds on a well-formed board. -/
def moveList (game : Game) (name : String) : List TilePtr :=
  (List.range fieldWidth).flatMap fun (x : Nat) =>
    (List.range fieldHeight).flatMap fun (y : Nat) => neutralNeighbours game name x y

/-- The coordinates `(xLocation, yLocation)` of the tiles a slice of pointers refers to. -/
def coords (game : Game) : List TilePtr → Except Panic (List (Int × Int))
  | [] => pure []
  | p :: rest => do
    let t ← deref game p
    let cs ← coords game rest
    pure ((t.xLocation, t.yLocation) :: cs)

/-- The game `InitGame` returns on the empty `Game` of `main`. -/
def startGame : Game :=
  match InitGame emptyGame with
  | .ok g => g
  | .error _ => emptyGame

/-- The positions of column `x` in the order of the inner loops. -/
def rowCells (x : Nat) : List TilePtr :=
  (List.range fieldHeight).map fun (y : Nat) => ((x : Int), (y : Int))

/-- The grid positions in the iteration order of the loops: `x` outer, `y` inner. -/
def cells : List TilePtr := (List.range fieldWidth).flatMap rowCells

/-- The number of orthogonal neighbours of `(x, y)` that are inside the grid
and carry the tag `name`. -/
def sideNeighbourCount (game : Game) (name : String) (x y : Int) : Nat :=
  (if sideAt game name (x - 1) y then 1 else 0) + (if sideAt game name (x + 1) y then 1 else 0) +
    (if sideAt game name x (y - 1) then 1 else 0) + (if sideAt game name x (y + 1) then 1 else 0)

/-- The game after two opponent moves from the start, to (1,0) and then to
(2,1): the enemy owns (2,0), (1,0) and (2,1). -/
def crowdedGame : Game :=
  match DoEnemyMove startGame 0 >>= fun g => DoEnemyMove g 3 with
  | .ok g => g
  | .error _ => emptyGame

/-- Does the screen rectangle of the tile at `p` contain the mouse position? -/
def hitAt (game : Game) (mouseX mouseY : Int) (p : TilePtr) : Bool :=
  match tileAt game p.1 p.2 with
  | .ok (some t) => inRect t mouseX mouseY
  | _ => false

/-- The tile a click resolves to: the first tile in iteration order whose
screen rectangle contains the mouse position, if there is one. -/
def resolveClick (game : Game) (mouseX mouseY : Int) : Option TilePtr :=
  cells.find? (hitAt game mouseX mouseY)

/-- What the loops of `ClickedOnTile` leave behind when the click resolves to `r`. -/
def clickResult (game : Game) (playerMoveTiles : List TilePtr) :
    Option TilePtr → Except Panic (Option Game)
  | none => .ok none
  | some p => do
    let g ← clickTile game playerMoveTiles p
    pure (some g)

/-- The start board with the player to move: `playerTurns = 2`. -/
def playerToMove : Game := { startGame with playerTurns := 2 }

/-- What drives the program: ebiten calls `Update` or `Draw`. -/
inductive Event where
  | update
  | draw (inp : Input)
  deriving DecidableEq, Repr

/-- One call of `Update` or `Draw` on the program state. -/
def step (w : World) : Event → Except Panic World
  | .update => Update w
  | .draw inp => do
    let g ← Draw w.game inp
    pure { w with game := g }

/-- A sequence of `Update` and `Draw` calls, in order. -/
def run (w : World) : List Event → Except Panic World
  | [] => pure w
  | e :: rest => do
    let w' ← step w e
    run w' rest

/-- The InitGame state: the program state when `InitGame` has just returned. -/
def initWorld : World := { initialized := true, game := startGame }

/-- Both remaining-move counters lie between 0 and the allowance of 2. -/
def countersInRange (game : Game) : Prop :=
  0 ≤ game.playerTurns ∧ game.playerTurns ≤ 2 ∧ 0 ≤ game.enemyTurns ∧ game.enemyTurns ≤ 2

instance (game : Game) : Decidable (countersInRange game) := by
  unfold countersInRange; infer_instance

/-- A full board, well formed: the enemy owns the rows `y < 3`, the player the
rows `y >= 3`.  It is the opponent's turn, on a trigger tick (`count = 1`). -/
def fullGame : Game :=
  { count := 1
    fieldTiles := (List.range fieldWidth).map fun (x : Nat) =>
      (List.range fieldHeight).map fun (y : Nat) =>
        some { xLocation := x, yLocation := y,
               xScreenCoord := (x : Int) * tileSize, yScreenCoord := (y : Int) * tileSize,
               image := some (if y < 3 then EnemyFrames else PlayerFrames) }
    playerTurns := 0
    enemyTurns := 2 }

/-- The start board when the opponent has used up its allowance: both counters 0. -/
def turnOver : Game := { startGame with enemyTurns := 0 }

/-- The start board on the first trigger tick: `count = 1`, as the first
`Update` leaves it. -/
def firstTick : Game := { startGame with count := 1 }

/-- The cell `(x, y)` is owned by a side: its tag is player or enemy. -/
def owned (game : Game) (x y : Int) : Prop :=
  occupant game x y = some PlayerFrames.name ∨ occupant game x y = some EnemyFrames.name

instance (game : Game) (x y : Int) : Decidable (owned game x y) := by
  unfold owned; infer_instance

/-- A tile pointer that is not nil and whose `image` is not nil. -/
def presentTile (tile : Option FieldTile) : Bool :=
  match tile with
  | some t => t.image.isSome
  | none => false

/-- The boards of the totality claim: exactly `fieldWidth` columns of exactly
`fieldHeight` non-nil tiles with non-nil image.  Nothing is asked of the
tiles' coordinates or of which frame they carry. -/
def Shaped (game : Game) : Prop :=
  game.fieldTiles.length = fieldWidth ∧
  ∀ row ∈ game.fieldTiles, row.length = fieldHeight ∧ ∀ tile ∈ row, presentTile tile = true

instance (game : Game) : Decidable (Shaped game) := by
  unfold Shaped; infer_instance

/-- A board of the right shape that is not well formed: every tile claims the
coordinates (0,0) and carries a frame of its own, named "wall". -/
def wallGame : Game :=
  { count := 0
    fieldTiles := List.replicate fieldWidth (List.replicate fieldHeight
      (some { xLocation := 0, yLocation := 0, xScreenCoord := 0, yScreenCoord := 0,
              image := some { name := "wall", imageFrameX := 0, imageFrameY := 0,
                              framesCount := 1, isAlive := false } }))
    playerTurns := 0
    enemyTurns := 2 }

/-- The full board with the player to move: no legal player move is left. -/
def stuckPlayer : Game := { fullGame with playerTurns := 2 }

/-- The states a sequence of `Update` and `Draw` calls goes through, the
first and the last included. -/
def trace (w : World) : List Event → Except Panic (List World)
  | [] => pure [w]
  | e :: rest => do
    let w' ← step w e
    let ws ← trace w' rest
    pure (w :: ws)

/-- The call consumes an opponent trigger tick: it is a `Draw` that takes the
branch `DoEnemyMove(); enemyTurns--`, i.e. not the player's turn,
`enemyTurns > 0` and `count % 15 == 1`. -/
def consumesTick (w : World) : Event → Bool
  | .update => false
  | .draw _ =>
    decide (¬ w.game.playerTurns > 0 ∧ w.game.enemyTurns > 0 ∧ Int.tmod w.game.count 15 = 1)

/-- The number of opponent trigger ticks consumed along a sequence of calls. -/
def ticksConsumed (w : World) : List Event → Nat
  | [] => 0
  | e :: rest =>
    match step w e with
    | .ok w' => (if consumesTick w e then 1 else 0) + ticksConsumed w' rest
    | .error _ => 0

/-! # Theorems -/

/-! ## Basic facts about lookups on well-formed boards -/

theorem index_ok {α : Type} (s : List α) (i : Nat) (h : i < s.length) :
    index s (i : Int) = .ok (s.get ⟨i, h⟩) := by
  unfold index
  have h0 : ¬ ((i : Int) < 0) := by omega
  simp [h0, List.getElem?_eq_getElem h]

theorem index_error {α : Type} (s : List α) (i : Int) (h : i < 0 ∨ (s.length : Int) ≤ i) :
    index s i = .error .indexOutOfRange := by
  unfold index
  by_cases h0 : i < 0
  · simp [h0]
  · have h1 : s.length ≤ i.toNat := by omega
    simp [h0, List.getElem?_eq_none h1]

theorem WellFormed.cell {game : Game} (h : WellFormed game) {x y : Nat}
    (hx : x < fieldWidth) (hy : y < fieldHeight) :
    ∃ row t f, CellFacts game x y row t f := by
  obtain ⟨hlen, hrows, hcells⟩ := h
  have hx' : x < game.fieldTiles.length := by omega
  have hr := hrows _ (List.get_mem game.fieldTiles x hx')
  have hy' : y < (game.fieldTiles.get ⟨x, hx'⟩).length := by omega
  have hc := hcells x hx y hy
  have hat : tileAt game x y = .ok ((game.fieldTiles.get ⟨x, hx'⟩).get ⟨y, hy'⟩) := by
    unfold tileAt
    rw [index_ok _ x hx']
    exact index_ok _ y hy'
  rw [hat] at hc
  cases ht : (game.fieldTiles.get ⟨x, hx'⟩).get ⟨y, hy'⟩ with
  | none => rw [ht] at hc; simp [goodCell] at hc
  | some t =>
    rw [ht] at hc
    simp only [goodCell, Bool.and_eq_true, Bool.or_eq_true, decide_eq_true_eq] at hc
    obtain ⟨⟨h1, h2⟩, h3⟩ := hc
    rw [ht] at hat
    rcases h3 with (h3 | h3) | h3
    · exact ⟨_, t, _, ⟨hx', rfl, hy', ht, hat, h1, h2, h3, Or.inl rfl⟩⟩
    · exact ⟨_, t, _, ⟨hx', rfl, hy', ht, hat, h1, h2, h3, Or.inr (Or.inl rfl)⟩⟩
    · exact ⟨_, t, _, ⟨hx', rfl, hy', ht, hat, h1, h2, h3, Or.inr (Or.inr rfl)⟩⟩

theorem WellFormed.tileAt_outside {game : Game} (h : WellFormed game) {x y : Int}
    (hout : ¬ inGrid x y) : tileAt game x y = .error .indexOutOfRange := by
  obtain ⟨hlen, hrows, -⟩ := h
  unfold tileAt
  by_cases hx : x < 0 ∨ (game.fieldTiles.length : Int) ≤ x
  · rw [index_error _ _ hx]; rfl
  · have hx0 : 0 ≤ x := by omega
    have hx1 : x.toNat < game.fieldTiles.length := by omega
    have hxe : ((x.toNat : Nat) : Int) = x := Int.toNat_of_nonneg hx0
    have hi := index_ok game.fieldTiles x.toNat hx1
    rw [hxe] at hi
    rw [hi]
    have hr := hrows _ (List.get_mem game.fieldTiles x.toNat hx1)
    apply index_error
    rw [hr]
    unfold inGrid at hout
    omega

/-! ## What the loops of TilesPlayerOrEnemyCanGo compute -/

theorem ok_bind {α β : Type} (a : α) (f : α → Except Panic β) :
    (Except.ok a >>= f) = f a := rfl

theorem error_bind {α β : Type} (e : Panic) (f : α → Except Panic β) :
    (Except.error e >>= f) = Except.error e := rfl

theorem pure_eq_ok {α : Type} (a : α) : (pure a : Except Panic α) = Except.ok a := rfl

theorem WellFormed.occupant_outside {game : Game} (h : WellFormed game) {x y : Int}
    (hout : ¬ inGrid x y) : occupant game x y = none := by
  unfold occupant
  rw [h.tileAt_outside hout]

theorem inGrid_cast {x y : Nat} (hx : x < fieldWidth) (hy : y < fieldHeight) :
    inGrid (x : Int) (y : Int) := by
  unfold inGrid; omega

theorem inGrid_toNat {x y : Int} (h : inGrid x y) :
    x.toNat < fieldWidth ∧ y.toNat < fieldHeight ∧ ((x.toNat : Nat) : Int) = x ∧
      ((y.toNat : Nat) : Int) = y := by
  unfold inGrid at h; omega

theorem CellFacts.occupant_eq {game : Game} {x y : Nat} {row : List (Option FieldTile)}
    {t : FieldTile} {f : FrameType} (c : CellFacts game x y row t f) :
    occupant game x y = some f.name := by
  unfold occupant
  simp [c.hat, c.himg]

theorem probe_eq {game : Game} (h : WellFormed game) (guard : Bool) (nx ny : Int)
    (hc : guard = true ↔ inGrid nx ny) (moveTiles : List TilePtr) :
    probe guard game nx ny moveTiles = .ok (moveTiles ++ keep game (nx, ny)) := by
  unfold probe keep
  by_cases hin : inGrid nx ny
  · obtain ⟨h1, h2, h3, h4⟩ := inGrid_toNat hin
    obtain ⟨row, t, f, cf⟩ := h.cell h1 h2
    have hocc := cf.occupant_eq
    have hat := cf.hat
    rw [h3, h4] at hocc hat
    rw [if_pos (hc.mpr hin)]
    simp only [hat, hocc, imageName, cf.himg, ok_bind, pure_eq_ok]
    by_cases hn : f.name = NeutralFrames.name
    · simp [hn]
    · simp [hn]
  · rw [if_neg (fun hcc => hin (hc.mp hcc))]
    simp [h.occupant_outside hin, pure_eq_ok]

theorem visit_eq {game : Game} (h : WellFormed game) (name : String) {x y : Nat}
    {row : List (Option FieldTile)} {t : FieldTile} {f : FrameType}
    (cf : CellFacts game x y row t f) (hx : x < fieldWidth) (hy : y < fieldHeight)
    (moveTiles : List TilePtr) :
    visit game name x y (some t) moveTiles = .ok (moveTiles ++ neutralNeighbours game name x y) := by
  unfold visit neutralNeighbours
  rw [cf.occupant_eq]
  simp only [imageName, cf.himg, ok_bind, pure_eq_ok]
  by_cases hn : f.name = name
  · have e1 := fun m => probe_eq h (decide ((x : Int) - 1 ≥ 0)) ((x : Int) - 1) y
      (by unfold inGrid; simp only [decide_eq_true_eq]; omega) m
    have e2 := fun m => probe_eq h (decide ((x : Int) + 1 < (fieldWidth : Int))) ((x : Int) + 1) y
      (by unfold inGrid; simp only [decide_eq_true_eq]; omega) m
    have e3 := fun m => probe_eq h (decide ((y : Int) - 1 ≥ 0)) x ((y : Int) - 1)
      (by unfold inGrid; simp only [decide_eq_true_eq]; omega) m
    have e4 := fun m => probe_eq h (decide ((y : Int) + 1 < (fieldHeight : Int))) x ((y : Int) + 1)
      (by unfold inGrid; simp only [decide_eq_true_eq]; omega) m
    simp only [hn, if_true, e1, e2, e3, e4, ok_bind, List.append_assoc]
  · simp [hn]

theorem tilesRow_eq (game : Game) (name : String) (x : Int) (c : Nat → List TilePtr) :
    ∀ (rest : List (Option FieldTile)) (y : Nat) (moveTiles : List TilePtr),
      (∀ (i : Nat) (hi : i < rest.length) (m : List TilePtr),
        visit game name x ((y + i : Nat) : Int) (rest.get ⟨i, hi⟩) m = .ok (m ++ c (y + i))) →
      tilesRow game name x (y : Int) rest moveTiles =
        .ok (moveTiles ++ (List.range' y rest.length).flatMap c) := by
  intro rest
  induction rest with
  | nil => intro y moveTiles _; simp [tilesRow, pure_eq_ok]
  | cons tile rest ih =>
    intro y moveTiles hv
    have h0 := hv 0 (by simp) moveTiles
    simp only [Nat.add_zero, List.get_eq_getElem, List.getElem_cons_zero] at h0
    have hrest := ih (y + 1) (moveTiles ++ c y) (by
      intro i hi m
      have := hv (i + 1) (by simp; omega) m
      simp only [List.get_eq_getElem, List.getElem_cons_succ] at this
      have e : y + 1 + i = y + (i + 1) := by omega
      rw [e]
      simpa using this)
    simp only [tilesRow, h0, ok_bind]
    have e : ((y : Nat) : Int) + 1 = ((y + 1 : Nat) : Int) := by push_cast; ring
    rw [e, hrest]
    simp [List.range'_succ, List.flatMap_cons, List.append_assoc]

theorem tilesCols_eq (game : Game) (name : String) (c : Nat → List TilePtr) :
    ∀ (rest : List (List (Option FieldTile))) (x : Nat) (moveTiles : List TilePtr),
      (∀ (i : Nat) (hi : i < rest.length) (m : List TilePtr),
        tilesRow game name ((x + i : Nat) : Int) 0 (rest.get ⟨i, hi⟩) m = .ok (m ++ c (x + i))) →
      tilesCols game name (x : Int) rest moveTiles =
        .ok (moveTiles ++ (List.range' x rest.length).flatMap c) := by
  intro rest
  induction rest with
  | nil => intro x moveTiles _; simp [tilesCols, pure_eq_ok]
  | cons row rest ih =>
    intro x moveTiles hv
    have h0 := hv 0 (by simp) moveTiles
    simp only [Nat.add_zero, List.get_eq_getElem, List.getElem_cons_zero] at h0
    have hrest := ih (x + 1) (moveTiles ++ c x) (by
      intro i hi m
      have := hv (i + 1) (by simp; omega) m
      simp only [List.get_eq_getElem, List.getElem_cons_succ] at this
      have e : x + 1 + i = x + (i + 1) := by omega
      rw [e]
      simpa using this)
    simp only [tilesCols, h0, ok_bind]
    have e : ((x : Nat) : Int) + 1 = ((x + 1 : Nat) : Int) := by push_cast; ring
    rw [e, hrest]
    simp [List.range'_succ, List.flatMap_cons, List.append_assoc]

/-- On a well-formed board `TilesPlayerOrEnemyCanGo` returns, and returns `moveList`. -/
theorem tiles_eq_moveList {game : Game} (h : WellFormed game) (name : String) :
    TilesPlayerOrEnemyCanGo game name = .ok (moveList game name) := by
  unfold TilesPlayerOrEnemyCanGo moveList
  have hlen := h.1
  have key := tilesCols_eq game name
    (fun x => (List.range fieldHeight).flatMap fun y => neutralNeighbours game name x y)
    game.fieldTiles 0 [] (by
      intro i hi m
      have hi5 : i < fieldWidth := by omega
      have hrow := h.2.1 _ (List.get_mem game.fieldTiles i hi)
      have := tilesRow_eq game name ((0 + i : Nat) : Int)
        (fun y => neutralNeighbours game name ((0 + i : Nat) : Int) y)
        (game.fieldTiles.get ⟨i, hi⟩) 0 m (by
          intro j hj m'
          have hj6 : j < fieldHeight := by omega
          obtain ⟨row, t, f, cf⟩ := h.cell hi5 hj6
          have e1 : game.fieldTiles.get ⟨i, hi⟩ = row := cf.hrow
          have e2 : (game.fieldTiles.get ⟨i, hi⟩).get ⟨j, hj⟩ = some t := by
            have := cf.htile
            subst e1
            exact this
          rw [e2]
          simp only [Nat.zero_add]
          exact visit_eq h name cf hi5 hj6 m')
      rw [hrow, ← List.range_eq_range'] at this
      simpa using this)
  rw [hlen, ← List.range_eq_range'] at key
  simpa using key

/-! ## Membership in the move list -/

theorem mem_keep {game : Game} {p q : TilePtr} :
    p ∈ keep game q ↔ p = q ∧ occupant game q.1 q.2 = some NeutralFrames.name := by
  unfold keep
  by_cases h : occupant game q.1 q.2 = some NeutralFrames.name <;> simp [h]

theorem mem_neutralNeighbours {game : Game} {name : String} {x y : Int} {p : TilePtr} :
    p ∈ neutralNeighbours game name x y ↔
      occupant game x y = some name ∧ occupant game p.1 p.2 = some NeutralFrames.name ∧
        (p = (x - 1, y) ∨ p = (x + 1, y) ∨ p = (x, y - 1) ∨ p = (x, y + 1)) := by
  unfold neutralNeighbours
  by_cases h : occupant game x y = some name
  · simp only [h, if_true, List.mem_append, mem_keep, true_and]
    constructor
    · rintro (((⟨rfl, h1⟩ | ⟨rfl, h1⟩) | ⟨rfl, h1⟩) | ⟨rfl, h1⟩) <;> simp [h1]
    · rintro ⟨h1, rfl | rfl | rfl | rfl⟩ <;> simp [h1]
  · simp [h]

theorem mem_moveList {game : Game} {name : String} {p : TilePtr} :
    p ∈ moveList game name ↔
      ∃ x, x < fieldWidth ∧ ∃ y, y < fieldHeight ∧
        p ∈ neutralNeighbours game name (x : Int) (y : Int) := by
  unfold moveList
  simp only [List.mem_flatMap, List.mem_range]

theorem WellFormed.inGrid_of_occupant {game : Game} (h : WellFormed game) {x y : Int} {s : String}
    (ho : occupant game x y = some s) : inGrid x y := by
  by_contra hout
  rw [h.occupant_outside hout] at ho
  cases ho

/-- On a well-formed board the pointers of the move list are exactly the legal
destinations of the glossary. -/
theorem mem_moveList_iff {game : Game} (h : WellFormed game) (name : String) (p : TilePtr) :
    p ∈ moveList game name ↔ legalDestination game name p.1 p.2 := by
  rw [mem_moveList]
  unfold legalDestination adjacentToSide sideAt
  constructor
  · rintro ⟨x, hx, y, hy, hmem⟩
    rw [mem_neutralNeighbours] at hmem
    obtain ⟨hside, hneutral, hp⟩ := hmem
    have hg := inGrid_cast hx hy
    refine ⟨h.inGrid_of_occupant hneutral, hneutral, ?_⟩
    rcases hp with rfl | rfl | rfl | rfl
    · right; left; simpa using ⟨hg, hside⟩
    · left; simpa using ⟨hg, hside⟩
    · right; right; right; simpa using ⟨hg, hside⟩
    · right; right; left; simpa using ⟨hg, hside⟩
  · rintro ⟨-, hneutral, hadj⟩
    have lift : ∀ qx qy : Int, inGrid qx qy → occupant game qx qy = some name →
        (p = (qx - 1, qy) ∨ p = (qx + 1, qy) ∨ p = (qx, qy - 1) ∨ p = (qx, qy + 1)) →
        ∃ x, x < fieldWidth ∧ ∃ y, y < fieldHeight ∧
          p ∈ neutralNeighbours game name (x : Int) (y : Int) := by
      intro qx qy hq ho hp
      obtain ⟨h1, h2, h3, h4⟩ := inGrid_toNat hq
      refine ⟨qx.toNat, h1, qy.toNat, h2, ?_⟩
      rw [h3, h4, mem_neutralNeighbours]
      exact ⟨ho, hneutral, hp⟩
    obtain ⟨px, py⟩ := p
    rcases hadj with ⟨hq, ho⟩ | ⟨hq, ho⟩ | ⟨hq, ho⟩ | ⟨hq, ho⟩
    · exact lift _ _ hq ho (by right; left; simp)
    · exact lift _ _ hq ho (by left; simp)
    · exact lift _ _ hq ho (by right; right; right; simp)
    · exact lift _ _ hq ho (by right; right; left; simp)

/-- Reading through a pointer into the grid of a well-formed board. -/
theorem WellFormed.deref_eq {game : Game} (h : WellFormed game) {p : TilePtr}
    (hp : inGrid p.1 p.2) :
    ∃ t, deref game p = .ok t ∧ t.xLocation = p.1 ∧ t.yLocation = p.2 ∧
      t.image.map (fun f => f.name) = occupant game p.1 p.2 := by
  obtain ⟨h1, h2, h3, h4⟩ := inGrid_toNat hp
  obtain ⟨row, t, f, cf⟩ := h.cell h1 h2
  have hat := cf.hat
  have hocc := cf.occupant_eq
  rw [h3, h4] at hat hocc
  refine ⟨t, ?_, ?_, ?_, ?_⟩
  · unfold deref
    simp [hat, ok_bind, pure_eq_ok]
  · rw [cf.hxl, h3]
  · rw [cf.hyl, h4]
  · rw [hocc, cf.himg]; rfl

/-! ## The legal-move query (C1 to C6) -/

/-- C1. On every well-formed 5x6 board and for every side name (in particular
"player" and "enemy"), `TilesPlayerOrEnemyCanGo` returns a slice, and every
tile in it has the neutral image and coordinates with `0 <= x < 5` and
`0 <= y < 6`. -/
theorem tiles_neutral_in_grid (game : Game) (name : String) (h : WellFormed game) :
    ∃ l, TilesPlayerOrEnemyCanGo game name = .ok l ∧
      ∀ p ∈ l, ∃ t, deref game p = .ok t ∧
        t.image.map (fun f => f.name) = some NeutralFrames.name ∧
        0 ≤ t.xLocation ∧ t.xLocation < 5 ∧ 0 ≤ t.yLocation ∧ t.yLocation < 6 := by
  refine ⟨moveList game name, tiles_eq_moveList h name, ?_⟩
  intro p hp
  obtain ⟨hg, hn, -⟩ := (mem_moveList_iff h name p).mp hp
  obtain ⟨t, ht, hx, hy, himg⟩ := h.deref_eq hg
  refine ⟨t, ht, by rw [himg, hn], ?_⟩
  unfold inGrid fieldWidth fieldHeight at hg
  rw [hx, hy]
  omega

theorem tiles_neutral_in_grid_witness :
    WellFormed startGame ∧
    ∃ l, TilesPlayerOrEnemyCanGo startGame "enemy" = .ok l ∧
      ∀ p ∈ l, ∃ t, deref startGame p = .ok t ∧
        t.image.map (fun f => f.name) = some NeutralFrames.name ∧
        0 ≤ t.xLocation ∧ t.xLocation < 5 ∧ 0 ≤ t.yLocation ∧ t.yLocation < 6 :=
  ⟨by decide, tiles_neutral_in_grid startGame "enemy" (by decide)⟩

/-- C2. On every well-formed 5x6 board and for every side name, every tile
`(x, y)` returned by `TilesPlayerOrEnemyCanGo` is orthogonally adjacent to a
tile of the side: one of `(x-1, y)`, `(x+1, y)`, `(x, y-1)`, `(x, y+1)` is
inside the grid and carries the side's tag. -/
theorem tiles_adjacent_to_side (game : Game) (name : String) (h : WellFormed game) :
    ∃ l, TilesPlayerOrEnemyCanGo game name = .ok l ∧
      ∀ p ∈ l, ∃ t, deref game p = .ok t ∧
        (sideAt game name (t.xLocation - 1) t.yLocation ∨
         sideAt game name (t.xLocation + 1) t.yLocation ∨
         sideAt game name t.xLocation (t.yLocation - 1) ∨
         sideAt game name t.xLocation (t.yLocation + 1)) := by
  refine ⟨moveList game name, tiles_eq_moveList h name, ?_⟩
  intro p hp
  obtain ⟨hg, -, hadj⟩ := (mem_moveList_iff h name p).mp hp
  obtain ⟨t, ht, hx, hy, -⟩ := h.deref_eq hg
  refine ⟨t, ht, ?_⟩
  rw [hx, hy]
  exact hadj

theorem tiles_adjacent_to_side_witness :
    WellFormed startGame ∧
    ∃ l, TilesPlayerOrEnemyCanGo startGame "player" = .ok l ∧
      ∀ p ∈ l, ∃ t, deref startGame p = .ok t ∧
        (sideAt startGame "player" (t.xLocation - 1) t.yLocation ∨
         sideAt startGame "player" (t.xLocation + 1) t.yLocation ∨
         sideAt startGame "player" t.xLocation (t.yLocation - 1) ∨
         sideAt startGame "player" t.xLocation (t.yLocation + 1)) :=
  ⟨by decide, tiles_adjacent_to_side startGame "player" (by decide)⟩

/-- C3. On every well-formed 5x6 board and for every side name, the
coordinates of the tiles returned by `TilesPlayerOrEnemyCanGo` are exactly the
legal destinations: `(x, y)` is returned if and only if it is inside the grid,
neutral, and orthogonally adjacent to a tile of the side. -/
theorem tiles_exactly_legal (game : Game) (name : String) (h : WellFormed game) :
    ∃ l, TilesPlayerOrEnemyCanGo game name = .ok l ∧
      ∀ x y : Int,
        (∃ p ∈ l, ∃ t, deref game p = .ok t ∧ t.xLocation = x ∧ t.yLocation = y) ↔
          (inGrid x y ∧ occupant game x y = some NeutralFrames.name ∧
            (sideAt game name (x - 1) y ∨ sideAt game name (x + 1) y ∨
             sideAt game name x (y - 1) ∨ sideAt game name x (y + 1))) := by
  refine ⟨moveList game name, tiles_eq_moveList h name, ?_⟩
  intro x y
  constructor
  · rintro ⟨p, hp, t, ht, rfl, rfl⟩
    have hl := (mem_moveList_iff h name p).mp hp
    obtain ⟨t', ht', hx, hy, -⟩ := h.deref_eq hl.1
    rw [ht] at ht'
    cases ht'
    rw [hx, hy]
    exact hl
  · intro hl
    have hp : ((x, y) : TilePtr) ∈ moveList game name := (mem_moveList_iff h name (x, y)).mpr hl
    have hxy : inGrid ((x, y) : TilePtr).1 ((x, y) : TilePtr).2 := hl.1
    obtain ⟨t, ht, hx, hy, -⟩ := h.deref_eq hxy
    exact ⟨(x, y), hp, t, ht, hx, hy⟩

theorem tiles_exactly_legal_witness :
    WellFormed startGame ∧
    ∃ l, TilesPlayerOrEnemyCanGo startGame "enemy" = .ok l ∧
      ∀ x y : Int,
        (∃ p ∈ l, ∃ t, deref startGame p = .ok t ∧ t.xLocation = x ∧ t.yLocation = y) ↔
          (inGrid x y ∧ occupant startGame x y = some NeutralFrames.name ∧
            (sideAt startGame "enemy" (x - 1) y ∨ sideAt startGame "enemy" (x + 1) y ∨
             sideAt startGame "enemy" x (y - 1) ∨ sideAt startGame "enemy" x (y + 1))) :=
  ⟨by decide, tiles_exactly_legal startGame "enemy" (by decide)⟩

/-- C5. `InitGame` on the empty game of `main` returns a board of 5 columns of
6 tiles with the enemy at (2,0), the player at (2,5) and every other tile
neutral, and on that board `TilesPlayerOrEnemyCanGo("enemy")` returns tiles
whose coordinates are exactly (1,0), (3,0) and (2,1). -/
theorem initGame_board_and_enemy_moves :
    ∃ g, InitGame emptyGame = .ok g ∧
      g.fieldTiles.length = 5 ∧ (∀ row ∈ g.fieldTiles, row.length = 6) ∧
      (∀ x y : Int, inGrid x y →
        occupant g x y =
          some (if (x, y) = (2, 0) then EnemyFrames.name
                else if (x, y) = (2, 5) then PlayerFrames.name else NeutralFrames.name)) ∧
      ∃ l cs, TilesPlayerOrEnemyCanGo g "enemy" = .ok l ∧ coords g l = .ok cs ∧
        ∀ c : Int × Int, c ∈ cs ↔ (c = (1, 0) ∨ c = (3, 0) ∨ c = (2, 1)) := by
  refine ⟨startGame, rfl, rfl, by decide, ?_, [(1, 0), (3, 0), (2, 1)], [(1, 0), (3, 0), (2, 1)],
    rfl, rfl, ?_⟩
  · intro x y hg
    obtain ⟨h1, h2, h3, h4⟩ := hg
    unfold fieldWidth at h2
    unfold fieldHeight at h4
    interval_cases x <;> interval_cases y <;> rfl
  · intro c
    simp

/-- C6. From the `InitGame` board, the opponent's move to (2,1) (`DoEnemyMove`
drawing index 2) sets that tile to enemy and leaves (2,0) enemy, and afterwards
`TilesPlayerOrEnemyCanGo("enemy")` returns tiles whose coordinates are exactly
(1,0), (3,0), (1,1), (3,1) and (2,2). -/
theorem enemy_moves_after_first_move :
    ∃ g0 g1, InitGame emptyGame = .ok g0 ∧ DoEnemyMove g0 2 = .ok g1 ∧
      setImage g0 2 1 EnemyFrames = .ok g1 ∧
      occupant g1 2 0 = some EnemyFrames.name ∧ occupant g1 2 1 = some EnemyFrames.name ∧
      ∃ l cs, TilesPlayerOrEnemyCanGo g1 "enemy" = .ok l ∧ coords g1 l = .ok cs ∧
        ∀ c : Int × Int, c ∈ cs ↔
          (c = (1, 0) ∨ c = (3, 0) ∨ c = (1, 1) ∨ c = (3, 1) ∨ c = (2, 2)) := by
  refine ⟨startGame, _, rfl, rfl, rfl, rfl, rfl,
    [(1, 0), (3, 0), (1, 1), (3, 1), (2, 2)], [(1, 0), (3, 0), (1, 1), (3, 1), (2, 2)],
    rfl, rfl, ?_⟩
  intro c
  simp

/-! ## Counting occurrences in the move list -/

theorem moveList_eq_cells (game : Game) (name : String) :
    moveList game name = cells.flatMap fun q => neutralNeighbours game name q.1 q.2 := by
  unfold moveList cells rowCells
  rw [List.flatMap_assoc]
  simp only [List.flatMap_map]

theorem mem_cells {q : TilePtr} : q ∈ cells ↔ inGrid q.1 q.2 := by
  unfold cells rowCells
  simp only [List.mem_flatMap, List.mem_map, List.mem_range]
  constructor
  · rintro ⟨x, hx, y, hy, rfl⟩
    exact inGrid_cast hx hy
  · intro h
    obtain ⟨h1, h2, h3, h4⟩ := inGrid_toNat h
    exact ⟨q.1.toNat, h1, q.2.toNat, h2, by rw [h3, h4]⟩

theorem cells_nodup : cells.Nodup := by decide

theorem sum_point (l : List TilePtr) (a : TilePtr) (v : Nat) (hl : l.Nodup) :
    (l.map fun q => if q = a then v else 0).sum = if a ∈ l then v else 0 := by
  induction l with
  | nil => simp
  | cons b l ih =>
    rw [List.nodup_cons] at hl
    simp only [List.map_cons, List.sum_cons, ih hl.2, List.mem_cons]
    by_cases hb : b = a
    · subst hb
      simp [hl.1]
    · have hb' : ¬ a = b := fun e => hb e.symm
      simp [hb, hb']

theorem sum_map_add4 (l : List TilePtr) (f1 f2 f3 f4 : TilePtr → Nat) :
    (l.map fun q => f1 q + f2 q + f3 q + f4 q).sum =
      (l.map f1).sum + (l.map f2).sum + (l.map f3).sum + (l.map f4).sum := by
  induction l with
  | nil => simp
  | cons b l ih => simp only [List.map_cons, List.sum_cons, ih]; omega

theorem count_keep (game : Game) (p q : TilePtr) :
    (keep game q).count p =
      if q = p then (if occupant game p.1 p.2 = some NeutralFrames.name then 1 else 0) else 0 := by
  unfold keep
  by_cases hq : q = p
  · subst hq
    by_cases hn : occupant game q.1 q.2 = some NeutralFrames.name <;> simp [hn]
  · by_cases hn : occupant game q.1 q.2 = some NeutralFrames.name <;>
      simp [hn, hq, List.count_singleton]

/-- The contribution of direction `(dx, dy)` of the cell `q` to the count of `p`. -/
theorem count_neutralNeighbours (game : Game) (name : String) (p q : TilePtr) :
    (neutralNeighbours game name q.1 q.2).count p =
      (if q = (p.1 + 1, p.2) then
        (if occupant game (p.1 + 1) p.2 = some name ∧ occupant game p.1 p.2 = some NeutralFrames.name
          then 1 else 0) else 0) +
      (if q = (p.1 - 1, p.2) then
        (if occupant game (p.1 - 1) p.2 = some name ∧ occupant game p.1 p.2 = some NeutralFrames.name
          then 1 else 0) else 0) +
      (if q = (p.1, p.2 + 1) then
        (if occupant game p.1 (p.2 + 1) = some name ∧ occupant game p.1 p.2 = some NeutralFrames.name
          then 1 else 0) else 0) +
      (if q = (p.1, p.2 - 1) then
        (if occupant game p.1 (p.2 - 1) = some name ∧ occupant game p.1 p.2 = some NeutralFrames.name
          then 1 else 0) else 0) := by
  obtain ⟨px, py⟩ := p
  obtain ⟨qx, qy⟩ := q
  unfold neutralNeighbours
  have e1 : ((qx - 1, qy) : TilePtr) = (px, py) ↔ ((qx, qy) : TilePtr) = (px + 1, py) := by
    simp only [Prod.mk.injEq]; omega
  have e2 : ((qx + 1, qy) : TilePtr) = (px, py) ↔ ((qx, qy) : TilePtr) = (px - 1, py) := by
    simp only [Prod.mk.injEq]; omega
  have e3 : ((qx, qy - 1) : TilePtr) = (px, py) ↔ ((qx, qy) : TilePtr) = (px, py + 1) := by
    simp only [Prod.mk.injEq]; omega
  have e4 : ((qx, qy + 1) : TilePtr) = (px, py) ↔ ((qx, qy) : TilePtr) = (px, py - 1) := by
    simp only [Prod.mk.injEq]; omega
  by_cases hs : occupant game qx qy = some name
  · simp only [hs, if_true, List.count_append, count_keep, e1, e2, e3, e4]
    by_cases hn : occupant game px py = some NeutralFrames.name
    · simp only [hn, and_true, if_true]
      congr 1
      · congr 1
        · congr 1
          · by_cases h : ((qx, qy) : TilePtr) = (px + 1, py)
            · have := h; simp only [Prod.mk.injEq] at this
              rw [if_pos h, if_pos h, ← this.1, ← this.2, if_pos hs]
            · rw [if_neg h, if_neg h]
          · by_cases h : ((qx, qy) : TilePtr) = (px - 1, py)
            · have := h; simp only [Prod.mk.injEq] at this
              rw [if_pos h, if_pos h, ← this.1, ← this.2, if_pos hs]
            · rw [if_neg h, if_neg h]
        · by_cases h : ((qx, qy) : TilePtr) = (px, py + 1)
          · have := h; simp only [Prod.mk.injEq] at this
            rw [if_pos h, if_pos h, ← this.1, ← this.2, if_pos hs]
          · rw [if_neg h, if_neg h]
      · by_cases h : ((qx, qy) : TilePtr) = (px, py - 1)
        · have := h; simp only [Prod.mk.injEq] at this
          rw [if_pos h, if_pos h, ← this.1, ← this.2, if_pos hs]
        · rw [if_neg h, if_neg h]
    · simp [hn]
  · simp only [hs, if_false, List.count_nil]
    have z : ∀ (a : TilePtr) (c : Prop) [Decidable c], (((qx, qy) : TilePtr) = a → ¬ c) →
        (if ((qx, qy) : TilePtr) = a then (if c then 1 else 0) else 0) = 0 := by
      intro a c _ hc
      by_cases h : ((qx, qy) : TilePtr) = a
      · rw [if_pos h, if_neg (hc h)]
      · rw [if_neg h]
    rw [z, z, z, z]
    all_goals
      intro h hc
      simp only [Prod.mk.injEq] at h
      rw [← h.1, ← h.2] at hc
      exact hs hc.1

/-- On a well-formed board a pointer occurs in the move list once for each
neighbour of its cell that carries the side's tag, when the cell is neutral,
and not at all otherwise. -/
theorem count_moveList {game : Game} (h : WellFormed game) (name : String) (p : TilePtr) :
    (moveList game name).count p =
      if inGrid p.1 p.2 ∧ occupant game p.1 p.2 = some NeutralFrames.name then
        sideNeighbourCount game name p.1 p.2
      else 0 := by
  rw [moveList_eq_cells, List.count_flatMap]
  have hf : (List.count p ∘ fun q : TilePtr => neutralNeighbours game name q.1 q.2) =
      fun q => _ := funext fun q => count_neutralNeighbours game name p q
  rw [hf, sum_map_add4, sum_point _ _ _ cells_nodup, sum_point _ _ _ cells_nodup,
    sum_point _ _ _ cells_nodup, sum_point _ _ _ cells_nodup]
  simp only [mem_cells]
  unfold sideNeighbourCount sideAt
  by_cases hn : occupant game p.1 p.2 = some NeutralFrames.name
  · have hg := h.inGrid_of_occupant hn
    simp only [hn, hg, and_true, true_and, if_true]
    have z : ∀ (x y : Int), (if inGrid x y then (if occupant game x y = some name then 1 else 0)
        else 0) = if inGrid x y ∧ occupant game x y = some name then 1 else 0 := by
      intro x y
      by_cases h1 : inGrid x y <;> simp [h1]
    rw [z, z, z, z]
    omega
  · simp [hn]

theorem coords_eq_self {game : Game} (h : WellFormed game) :
    ∀ l : List TilePtr, (∀ p ∈ l, inGrid p.1 p.2) → coords game l = .ok l := by
  intro l
  induction l with
  | nil => intro _; rfl
  | cons p l ih =>
    intro hl
    obtain ⟨t, ht, hx, hy, -⟩ := h.deref_eq (hl p (List.mem_cons_self p l))
    have hrest := ih (fun q hq => hl q (List.mem_cons_of_mem p hq))
    simp only [coords, ht, hrest, ok_bind, pure_eq_ok, hx, hy]

theorem coords_moveList {game : Game} (h : WellFormed game) (name : String) :
    coords game (moveList game name) = .ok (moveList game name) :=
  coords_eq_self h _ (fun p hp => ((mem_moveList_iff h name p).mp hp).1)

/-- C4, as the code has it. On every well-formed 5x6 board and for every side
name, duplicates are not collapsed: a coordinate pair occurs in the slice
returned by `TilesPlayerOrEnemyCanGo` once for each of its orthogonal
neighbours that carries the side's tag when its tile is neutral (so between
one and four times when it occurs), and not at all otherwise. -/
theorem tiles_multiplicity (game : Game) (name : String) (h : WellFormed game) :
    ∃ l cs, TilesPlayerOrEnemyCanGo game name = .ok l ∧ coords game l = .ok cs ∧
      ∀ x y : Int, cs.count (x, y) =
        if inGrid x y ∧ occupant game x y = some NeutralFrames.name then
          sideNeighbourCount game name x y
        else 0 :=
  ⟨moveList game name, moveList game name, tiles_eq_moveList h name, coords_moveList h name,
    fun x y => count_moveList h name (x, y)⟩

theorem tiles_multiplicity_witness :
    WellFormed crowdedGame ∧
    ∃ l cs, TilesPlayerOrEnemyCanGo crowdedGame "enemy" = .ok l ∧ coords crowdedGame l = .ok cs ∧
      ∀ x y : Int, cs.count (x, y) =
        if inGrid x y ∧ occupant crowdedGame x y = some NeutralFrames.name then
          sideNeighbourCount crowdedGame "enemy" x y
        else 0 :=
  ⟨by decide, tiles_multiplicity crowdedGame "enemy" (by decide)⟩

/-- C4, counterexample. After the opponent has moved from the start to (1,0)
and to (2,1), the neutral tile (1,1) is adjacent to two enemy tiles and occurs
twice in the slice returned by `TilesPlayerOrEnemyCanGo("enemy")`. -/
theorem tiles_duplicate_counterexample :
    (DoEnemyMove startGame 0 >>= fun g => DoEnemyMove g 3) = .ok crowdedGame ∧
    WellFormed crowdedGame ∧
    TilesPlayerOrEnemyCanGo crowdedGame "enemy" =
      .ok [(0, 0), (1, 1), (3, 0), (1, 1), (3, 1), (2, 2)] ∧
    coords crowdedGame [(0, 0), (1, 1), (3, 0), (1, 1), (3, 1), (2, 2)] =
      .ok [(0, 0), (1, 1), (3, 0), (1, 1), (3, 1), (2, 2)] ∧
    ¬ ([(0, 0), (1, 1), (3, 0), (1, 1), (3, 1), (2, 2)] : List (Int × Int)).Nodup :=
  ⟨rfl, by decide, rfl, rfl, by decide⟩

/-! ## Writing an image through a pointer -/

theorem index_set {α : Type} (s : List α) (n : Nat) (a : α) (hn : n < s.length) (i : Int) :
    index (s.set n a) i = if i = (n : Int) then .ok a else index s i := by
  unfold index
  by_cases h0 : i < 0
  · have : ¬ i = (n : Int) := by omega
    simp [h0, this]
  · simp only [h0, if_false, List.getElem?_set]
    by_cases hi : n = i.toNat
    · have hin : i = (n : Int) := by omega
      rw [if_pos hi, if_pos hn, if_pos hin]
    · have hin : ¬ i = (n : Int) := by omega
      rw [if_neg hi, if_neg hin]

theorem tileAt_set (game : Game) (X Y : Nat) (row : List (Option FieldTile))
    (new : Option FieldTile) (hX : X < game.fieldTiles.length)
    (hrow : game.fieldTiles.get ⟨X, hX⟩ = row) (hY : Y < row.length) (x y : Int) :
    tileAt { game with fieldTiles := game.fieldTiles.set X (row.set Y new) } x y =
      if x = (X : Int) ∧ y = (Y : Int) then .ok new else tileAt game x y := by
  unfold tileAt
  simp only [index_set _ _ _ hX]
  by_cases hx : x = (X : Int)
  · subst hx
    have hi : index game.fieldTiles (X : Int) = .ok row := by rw [index_ok _ X hX, hrow]
    simp only [if_true, ok_bind, hi, index_set _ _ _ hY, true_and]
  · simp [hx]

/-- Writing one of the three frames into a cell of a well-formed board:
the write succeeds, the board stays well formed, the cell reads back the
frame and nothing else changes. -/
theorem setImage_spec {game : Game} (h : WellFormed game) {x y : Int} (hg : inGrid x y)
    (frame : FrameType)
    (hf : frame = NeutralFrames ∨ frame = PlayerFrames ∨ frame = EnemyFrames) :
    ∃ g, setImage game x y frame = .ok g ∧ WellFormed g ∧ g.count = game.count ∧
      g.playerTurns = game.playerTurns ∧ g.enemyTurns = game.enemyTurns ∧
      occupant g x y = some frame.name ∧
      ∀ x' y' : Int, (x', y') ≠ (x, y) → tileAt g x' y' = tileAt game x' y' := by
  obtain ⟨h1, h2, h3, h4⟩ := inGrid_toNat hg
  obtain ⟨row, t, f, cf⟩ := h.cell h1 h2
  have hxi : index game.fieldTiles x = .ok row := by
    have := index_ok game.fieldTiles x.toNat cf.hx
    rw [h3, cf.hrow] at this
    exact this
  have hyi : index row y = .ok (some t) := by
    have := index_ok row y.toNat cf.hy
    rw [h4, cf.htile] at this
    exact this
  have hat := tileAt_set game x.toNat y.toNat row (some { t with image := some frame }) cf.hx
    cf.hrow cf.hy
  rw [h3, h4] at hat
  refine ⟨{ game with fieldTiles :=
      game.fieldTiles.set x.toNat (row.set y.toNat (some { t with image := some frame })) },
    ?_, ?_, rfl, rfl, rfl, ?_, ?_⟩
  · unfold setImage
    simp only [hxi, hyi, ok_bind, pure_eq_ok]
  · refine ⟨?_, ?_, ?_⟩
    · simp only [List.length_set]
      exact h.1
    · intro r hr
      rcases List.mem_or_eq_of_mem_set hr with hr | hr
      · exact h.2.1 r hr
      · rw [hr, List.length_set, ← cf.hrow]
        exact h.2.1 _ (List.get_mem _ _ _)
    · intro a ha b hb
      rw [hat]
      by_cases hab : (a : Int) = x ∧ (b : Int) = y
      · rw [if_pos hab]
        have e1 : t.xLocation = a := by rw [cf.hxl, h3, hab.1]
        have e2 : t.yLocation = b := by rw [cf.hyl, h4, hab.2]
        rcases hf with rfl | rfl | rfl <;> simp [goodCell, e1, e2]
      · rw [if_neg hab]
        exact h.2.2 a ha b hb
  · unfold occupant
    rw [hat]
    simp
  · intro x' y' hne
    rw [hat]
    have : ¬ (x' = x ∧ y' = y) := fun hc => hne (by rw [hc.1, hc.2])
    rw [if_neg this]

/-! ## What ClickedOnTile computes -/

theorem CanGo_eq {game : Game} (h : WellFormed game) {w : TilePtr} (hw : inGrid w.1 w.2) :
    ∀ l : List TilePtr, (∀ q ∈ l, inGrid q.1 q.2) → CanGo game l w = .ok (decide (w ∈ l)) := by
  intro l
  induction l with
  | nil => intro _; rfl
  | cons q l ih =>
    intro hl
    obtain ⟨tq, hq, hqx, hqy, -⟩ := h.deref_eq (hl q (List.mem_cons_self q l))
    obtain ⟨tw, htw, hwx, hwy, -⟩ := h.deref_eq hw
    have hrest := ih (fun r hr => hl r (List.mem_cons_of_mem q hr))
    simp only [CanGo, hq, htw, ok_bind, hqx, hqy, hwx, hwy, hrest, pure_eq_ok]
    by_cases e : q = w
    · subst e
      simp
    · have e' : ¬ (q.1 = w.1 ∧ q.2 = w.2) := fun hc => e (Prod.ext hc.1 hc.2)
      have e'' : ¬ w = q := fun hc => e hc.symm
      simp [e', e'']

theorem clickRow_eq (game : Game) (pm : List TilePtr) (mouseX mouseY : Int) (x : Int) :
    ∀ (rest : List (Option FieldTile)) (y : Nat),
      (∀ (i : Nat) (hi : i < rest.length), ∃ t, rest.get ⟨i, hi⟩ = some t ∧
        tileAt game x ((y + i : Nat) : Int) = .ok (some t)) →
      clickRow game pm mouseX mouseY x (y : Int) rest =
        clickResult game pm
          (((List.range' y rest.length).map fun (j : Nat) => (x, (j : Int))).find?
            (hitAt game mouseX mouseY)) := by
  intro rest
  induction rest with
  | nil => intro y _; rfl
  | cons tile rest ih =>
    intro y hv
    obtain ⟨t, ht, hat⟩ := hv 0 (by simp)
    simp only [Nat.add_zero, List.get_eq_getElem, List.getElem_cons_zero] at ht hat
    have hrest := ih (y + 1) (by
      intro i hi
      obtain ⟨t', ht', hat'⟩ := hv (i + 1) (by simp; omega)
      simp only [List.get_eq_getElem, List.getElem_cons_succ] at ht'
      have e : y + 1 + i = y + (i + 1) := by omega
      rw [e]
      exact ⟨t', by simpa using ht', hat'⟩)
    have e : ((y : Nat) : Int) + 1 = ((y + 1 : Nat) : Int) := by push_cast; ring
    have hhit : hitAt game mouseX mouseY (x, (y : Int)) = inRect t mouseX mouseY := by
      unfold hitAt
      simp only [hat]
    subst ht
    simp only [clickRow, List.length_cons, List.range'_succ, List.map_cons, List.find?_cons, hhit]
    by_cases hr : inRect t mouseX mouseY = true
    · simp only [hr, if_true]
      rfl
    · simp only [Bool.not_eq_true] at hr
      simp only [hr, Bool.false_eq_true, if_false]
      rw [e, hrest]

theorem clickCols_eq (game : Game) (pm : List TilePtr) (mouseX mouseY : Int) :
    ∀ (rest : List (List (Option FieldTile))) (x : Nat),
      (∀ (i : Nat) (hi : i < rest.length),
        clickRow game pm mouseX mouseY ((x + i : Nat) : Int) 0 (rest.get ⟨i, hi⟩) =
          clickResult game pm ((rowCells (x + i)).find? (hitAt game mouseX mouseY))) →
      clickCols game pm mouseX mouseY (x : Int) rest =
        clickResult game pm
          (((List.range' x rest.length).flatMap rowCells).find? (hitAt game mouseX mouseY)) := by
  intro rest
  induction rest with
  | nil => intro x _; rfl
  | cons row rest ih =>
    intro x hv
    have h0 := hv 0 (by simp)
    simp only [Nat.add_zero, List.get_eq_getElem, List.getElem_cons_zero] at h0
    have hrest := ih (x + 1) (by
      intro i hi
      have := hv (i + 1) (by simp; omega)
      simp only [List.get_eq_getElem, List.getElem_cons_succ] at this
      have e : x + 1 + i = x + (i + 1) := by omega
      rw [e]
      simpa using this)
    have e : ((x : Nat) : Int) + 1 = ((x + 1 : Nat) : Int) := by push_cast; ring
    simp only [clickCols, h0, List.length_cons, List.range'_succ, List.flatMap_cons,
      List.find?_append]
    cases hf : (rowCells x).find? (hitAt game mouseX mouseY) with
    | none =>
      simp only [clickResult, ok_bind, Option.or, e, hrest]
    | some p =>
      simp only [clickResult, Option.or]
      cases hc : clickTile game pm p with
      | error err => rfl
      | ok g => rfl

/-- On a well-formed board `ClickedOnTile` returns: it acts on the tile the
click resolves to, or does nothing when the click hits no tile. -/
theorem clicked_eq {game : Game} (h : WellFormed game) (mouseX mouseY : Int) :
    ClickedOnTile game mouseX mouseY =
      (match resolveClick game mouseX mouseY with
      | none => .ok (game, false)
      | some p => (clickTile game (moveList game "player") p).map fun g => (g, true)) := by
  have key := clickCols_eq game (moveList game "player") mouseX mouseY game.fieldTiles 0 (by
    intro i hi
    have hi5 : i < fieldWidth := by have := h.1; omega
    have hrow := h.2.1 _ (List.get_mem game.fieldTiles i hi)
    have := clickRow_eq game (moveList game "player") mouseX mouseY ((0 + i : Nat) : Int)
      (game.fieldTiles.get ⟨i, hi⟩) 0 (by
        intro j hj
        have hj6 : j < fieldHeight := by omega
        obtain ⟨row, t, f, cf⟩ := h.cell hi5 hj6
        have e1 : game.fieldTiles.get ⟨i, hi⟩ = row := cf.hrow
        refine ⟨t, ?_, ?_⟩
        · have := cf.htile
          subst e1
          exact this
        · simp only [Nat.zero_add]
          exact cf.hat)
    rw [hrow, ← List.range_eq_range'] at this
    simpa [rowCells] using this)
  rw [h.1, ← List.range_eq_range'] at key
  unfold ClickedOnTile
  rw [tiles_eq_moveList h "player"]
  simp only [ok_bind]
  have key' : clickCols game (moveList game "player") mouseX mouseY 0 game.fieldTiles =
      clickResult game (moveList game "player") (resolveClick game mouseX mouseY) := by
    simpa [resolveClick, cells] using key
  rw [key']
  cases hr : resolveClick game mouseX mouseY with
  | none => rfl
  | some p =>
    simp only [clickResult]
    cases hc : clickTile game (moveList game "player") p with
    | error err => rfl
    | ok g => rfl

theorem occupant_congr {g g' : Game} {x y : Int} (h : tileAt g' x y = tileAt g x y) :
    occupant g' x y = occupant g x y := by
  unfold occupant
  rw [h]

theorem resolveClick_inGrid {game : Game} {mouseX mouseY : Int} {p : TilePtr}
    (h : resolveClick game mouseX mouseY = some p) : inGrid p.1 p.2 :=
  mem_cells.mp (List.mem_of_find?_eq_some h)

/-- The block run on the tile under the mouse, on a well-formed board: either
the tile is not a legal move and nothing changes, or it is, the tile becomes
the player's, nothing else on the board changes and `playerTurns` drops by one. -/
theorem clickTile_spec {game : Game} (h : WellFormed game) {p : TilePtr} (hp : inGrid p.1 p.2) :
    ∃ g, clickTile game (moveList game "player") p = .ok g ∧ WellFormed g ∧
      g.count = game.count ∧ g.enemyTurns = game.enemyTurns ∧
      ((p ∉ moveList game "player" ∧ g = game) ∨
       (p ∈ moveList game "player" ∧ occupant g p.1 p.2 = some PlayerFrames.name ∧
        (∀ x y : Int, (x, y) ≠ p → occupant g x y = occupant game x y) ∧
        g.playerTurns = game.playerTurns - 1)) := by
  have hcan := CanGo_eq h hp (moveList game "player")
    (fun q hq => ((mem_moveList_iff h "player" q).mp hq).1)
  unfold clickTile
  rw [hcan]
  by_cases hm : p ∈ moveList game "player"
  · obtain ⟨g, hset, hwf, hc, hpt, het, hocc, hrest⟩ :=
      setImage_spec h hp PlayerFrames (Or.inr (Or.inl rfl))
    refine ⟨{ g with playerTurns := g.playerTurns - 1 }, ?_, hwf, hc, het, Or.inr ⟨hm, hocc, ?_, ?_⟩⟩
    · simp only [hm, decide_True, ok_bind, if_true, hset, pure_eq_ok]
    · intro x y hne
      have hsame : tileAt { g with playerTurns := g.playerTurns - 1 } x y = tileAt game x y :=
        hrest x y hne
      exact occupant_congr hsame
    · show g.playerTurns - 1 = game.playerTurns - 1
      rw [hpt]
  · refine ⟨game, ?_, h, rfl, rfl, Or.inl ⟨hm, rfl⟩⟩
    simp [hm, ok_bind, pure_eq_ok]

/-! ## Clicks (C7 and C8) -/

/-- C7. On every well-formed game state and for every mouse position: if the
tile the click resolves to (the first tile in iteration order whose screen
rectangle contains the position) is not in `TilesPlayerOrEnemyCanGo("player")`,
or the position hits no tile, then `ClickedOnTile` returns and leaves the game
as it was: every tile's occupant and `playerTurns` are unchanged. -/
theorem click_rejected_unchanged (game : Game) (mouseX mouseY : Int) (l : List TilePtr)
    (h : WellFormed game) (hl : TilesPlayerOrEnemyCanGo game "player" = .ok l)
    (hmiss : ∀ p, resolveClick game mouseX mouseY = some p → p ∉ l) :
    ∃ g b, ClickedOnTile game mouseX mouseY = .ok (g, b) ∧
      (∀ x y : Int, occupant g x y = occupant game x y) ∧
      g.playerTurns = game.playerTurns ∧ g = game := by
  rw [tiles_eq_moveList h "player"] at hl
  cases hl
  rw [clicked_eq h]
  cases hr : resolveClick game mouseX mouseY with
  | none => exact ⟨game, false, rfl, fun _ _ => rfl, rfl, rfl⟩
  | some p =>
    obtain ⟨g, hg, -, -, -, hcase⟩ := clickTile_spec h (resolveClick_inGrid hr)
    rcases hcase with ⟨-, rfl⟩ | ⟨hin, -⟩
    · refine ⟨g, true, ?_, fun _ _ => rfl, rfl, rfl⟩
      simp only [hg]
      rfl
    · exact absurd hin (hmiss p hr)

theorem click_rejected_unchanged_witness :
    WellFormed startGame ∧
    TilesPlayerOrEnemyCanGo startGame "player" = .ok [(1, 5), (3, 5), (2, 4)] ∧
    resolveClick startGame 80 180 = some (2, 5) ∧
    ∃ g b, ClickedOnTile startGame 80 180 = .ok (g, b) ∧
      (∀ x y : Int, occupant g x y = occupant startGame x y) ∧
      g.playerTurns = startGame.playerTurns ∧ g = startGame :=
  ⟨by decide, rfl, rfl,
    click_rejected_unchanged startGame 80 180 [(1, 5), (3, 5), (2, 4)] (by decide) rfl
      (by
        intro p hp
        have hr : resolveClick startGame 80 180 = some (2, 5) := rfl
        rw [hr] at hp
        cases hp
        decide)⟩

/-- C8. On every well-formed game state and for every mouse position whose
resolved tile `p` is in `TilesPlayerOrEnemyCanGo("player")`: `ClickedOnTile`
returns true, afterwards the occupant of `p` reads back as player, every other
tile's occupant is unchanged, and `playerTurns` has dropped by exactly 1. -/
theorem click_accepted (game : Game) (mouseX mouseY : Int) (l : List TilePtr) (p : TilePtr)
    (h : WellFormed game) (hl : TilesPlayerOrEnemyCanGo game "player" = .ok l)
    (hres : resolveClick game mouseX mouseY = some p) (hin : p ∈ l) :
    ∃ g, ClickedOnTile game mouseX mouseY = .ok (g, true) ∧
      occupant g p.1 p.2 = some PlayerFrames.name ∧
      (∀ x y : Int, (x, y) ≠ p → occupant g x y = occupant game x y) ∧
      g.playerTurns = game.playerTurns - 1 := by
  rw [tiles_eq_moveList h "player"] at hl
  cases hl
  rw [clicked_eq h, hres]
  obtain ⟨g, hg, -, -, -, hcase⟩ := clickTile_spec h (resolveClick_inGrid hres)
  rcases hcase with ⟨hout, -⟩ | ⟨-, hocc, hrest, hpt⟩
  · exact absurd hin hout
  · refine ⟨g, ?_, hocc, hrest, hpt⟩
    simp only [hg]
    rfl

theorem click_accepted_witness :
    WellFormed playerToMove ∧
    TilesPlayerOrEnemyCanGo playerToMove "player" = .ok [(1, 5), (3, 5), (2, 4)] ∧
    resolveClick playerToMove 80 150 = some (2, 4) ∧
    ∃ g, ClickedOnTile playerToMove 80 150 = .ok (g, true) ∧
      occupant g 2 4 = some PlayerFrames.name ∧
      (∀ x y : Int, (x, y) ≠ (2, 4) → occupant g x y = occupant playerToMove x y) ∧
      g.playerTurns = playerToMove.playerTurns - 1 :=
  ⟨by decide, rfl, rfl,
    click_accepted playerToMove 80 150 [(1, 5), (3, 5), (2, 4)] (2, 4) (by decide) rfl rfl
      (by decide)⟩

/-! ## What one step does -/

/-- `ClickedOnTile` on a well-formed board: it returns, keeps the board well
formed, and either changes nothing or gives the resolved legal tile to the
player and takes one from `playerTurns`. -/
theorem ClickedOnTile_spec {game : Game} (h : WellFormed game) (mouseX mouseY : Int) :
    ∃ g b, ClickedOnTile game mouseX mouseY = .ok (g, b) ∧ WellFormed g ∧
      g.count = game.count ∧ g.enemyTurns = game.enemyTurns ∧
      (g = game ∨
       ∃ p, resolveClick game mouseX mouseY = some p ∧ p ∈ moveList game "player" ∧
        occupant g p.1 p.2 = some PlayerFrames.name ∧
        (∀ x y : Int, (x, y) ≠ p → occupant g x y = occupant game x y) ∧
        g.playerTurns = game.playerTurns - 1) := by
  rw [clicked_eq h]
  cases hr : resolveClick game mouseX mouseY with
  | none => exact ⟨game, false, rfl, h, rfl, rfl, Or.inl rfl⟩
  | some p =>
    obtain ⟨g, hg, hwf, hc, het, hcase⟩ := clickTile_spec h (resolveClick_inGrid hr)
    refine ⟨g, true, ?_, hwf, hc, het, ?_⟩
    · simp only [hg]
      rfl
    · rcases hcase with ⟨-, e⟩ | ⟨hin, hocc, hrest, hpt⟩
      · exact Or.inl e
      · exact Or.inr ⟨p, rfl, hin, hocc, hrest, hpt⟩

/-- `DoEnemyMove` on a well-formed board: it returns, keeps the board well
formed and the counters as they were, and either there is no legal move and
nothing changes, or the tile at the drawn index of the move list becomes the
enemy's and no other tile changes. -/
theorem DoEnemyMove_spec {game : Game} (h : WellFormed game) (rnd : Nat) :
    ∃ g, DoEnemyMove game rnd = .ok g ∧ WellFormed g ∧ g.count = game.count ∧
      g.playerTurns = game.playerTurns ∧ g.enemyTurns = game.enemyTurns ∧
      ((moveList game "enemy" = [] ∧ g = game) ∨
       ∃ p, (moveList game "enemy")[rnd % (moveList game "enemy").length]? = some p ∧
        p ∈ moveList game "enemy" ∧
        occupant g p.1 p.2 = some EnemyFrames.name ∧
        (∀ x y : Int, (x, y) ≠ p → occupant g x y = occupant game x y)) := by
  unfold DoEnemyMove
  rw [tiles_eq_moveList h "enemy"]
  simp only [ok_bind]
  by_cases hlen : (moveList game "enemy").length > 0
  · have hlt : rnd % (moveList game "enemy").length < (moveList game "enemy").length :=
      Nat.mod_lt _ hlen
    have hidx := index_ok (moveList game "enemy") _ hlt
    have hmem : (moveList game "enemy").get ⟨_, hlt⟩ ∈ moveList game "enemy" :=
      List.get_mem _ _ _
    have hg := ((mem_moveList_iff h "enemy" _).mp hmem).1
    obtain ⟨g, hset, hwf, hc, hpt, het, hocc, hrest⟩ :=
      setImage_spec h hg EnemyFrames (Or.inr (Or.inr rfl))
    refine ⟨g, ?_, hwf, hc, hpt, het, Or.inr ⟨_, ?_, hmem, hocc, ?_⟩⟩
    · simp only [hlen, if_true, Intn, hidx, ok_bind, hset]
    · rw [List.getElem?_eq_getElem hlt]
      rfl
    · intro x y hne
      exact occupant_congr (hrest x y hne)
  · refine ⟨game, ?_, h, rfl, rfl, rfl, Or.inl ⟨?_, rfl⟩⟩
    · simp only [hlen, if_false, pure_eq_ok]
    · exact List.length_eq_zero.mp (by omega)

theorem player_ne_enemy : PlayerFrames.name ≠ EnemyFrames.name := by decide

/-! ## Turn control (C9 and C10) -/

/-- C9. State-gated mutation. On every well-formed game state and for every
`Draw` step (any mouse-button state, cursor position and random draw) the step
returns, and: if `playerTurns > 0` before the step, every tile that is enemy
after it was enemy before it; if `playerTurns <= 0` before the step, every
tile that is player after it was player before it. -/
theorem draw_state_gated (game : Game) (inp : Input) (h : WellFormed game) :
    ∃ g, Draw game inp = .ok g ∧
      (game.playerTurns > 0 → ∀ x y : Int,
        occupant g x y = some EnemyFrames.name → occupant game x y = some EnemyFrames.name) ∧
      (game.playerTurns ≤ 0 → ∀ x y : Int,
        occupant g x y = some PlayerFrames.name → occupant game x y = some PlayerFrames.name) := by
  unfold Draw
  by_cases hp : game.playerTurns > 0
  · have hp' : ¬ game.playerTurns ≤ 0 := by omega
    rw [if_pos hp]
    cases hpr : inp.pressed with
    | false =>
      refine ⟨{ game with enemyTurns := 2 }, rfl, fun _ _ _ ho => ho, fun hc => absurd hc hp'⟩
    | true =>
      obtain ⟨g, b, hg, -, -, -, hcase⟩ := ClickedOnTile_spec h inp.cursorX inp.cursorY
      refine ⟨{ g with enemyTurns := 2 }, ?_, ?_, fun hc => absurd hc hp'⟩
      · simp only [if_true, hg, ok_bind, pure_eq_ok]
      · intro _ x y ho
        have ho' : occupant g x y = some EnemyFrames.name := ho
        rcases hcase with rfl | ⟨p, -, -, hocc, hrest, -⟩
        · exact ho'
        · by_cases e : (x, y) = p
          · subst e
            rw [hocc] at ho'
            exact absurd (Option.some.inj ho') player_ne_enemy
          · rw [← hrest x y e]
            exact ho'
  · rw [if_neg hp]
    by_cases he : game.enemyTurns > 0
    · rw [if_pos he]
      by_cases hc : Int.tmod game.count 15 = 1
      · obtain ⟨g, hg, -, -, -, -, hcase⟩ := DoEnemyMove_spec h inp.rnd
        refine ⟨{ g with enemyTurns := g.enemyTurns - 1 }, ?_, fun hc' => absurd hc' hp, ?_⟩
        · simp only [hc, if_true, hg, ok_bind, pure_eq_ok]
        · intro _ x y ho
          have ho' : occupant g x y = some PlayerFrames.name := ho
          rcases hcase with ⟨-, rfl⟩ | ⟨p, -, -, hocc, hrest⟩
          · exact ho'
          · by_cases e : (x, y) = p
            · subst e
              rw [hocc] at ho'
              exact absurd (Option.some.inj ho').symm player_ne_enemy
            · rw [← hrest x y e]
              exact ho'
      · refine ⟨game, ?_, fun hc' => absurd hc' hp, fun _ _ _ ho => ho⟩
        simp only [hc, if_false, pure_eq_ok]
    · refine ⟨{ game with playerTurns := 2 }, ?_, fun hc' => absurd hc' hp, fun _ _ _ ho => ho⟩
      rw [if_neg he]
      rfl

theorem draw_state_gated_witness :
    WellFormed playerToMove ∧
    ∃ g, Draw playerToMove { pressed := true, cursorX := 80, cursorY := 150, rnd := 0 } = .ok g ∧
      (playerToMove.playerTurns > 0 → ∀ x y : Int,
        occupant g x y = some EnemyFrames.name →
          occupant playerToMove x y = some EnemyFrames.name) ∧
      (playerToMove.playerTurns ≤ 0 → ∀ x y : Int,
        occupant g x y = some PlayerFrames.name →
          occupant playerToMove x y = some PlayerFrames.name) :=
  ⟨by decide,
    draw_state_gated playerToMove { pressed := true, cursorX := 80, cursorY := 150, rnd := 0 }
      (by decide)⟩

/-- One `Draw` step keeps a well-formed board well formed and the two counters
between 0 and 2. -/
theorem Draw_preserves {game : Game} (h : WellFormed game) (hb : countersInRange game)
    (inp : Input) : ∃ g, Draw game inp = .ok g ∧ WellFormed g ∧ countersInRange g := by
  obtain ⟨h1, h2, h3, h4⟩ := hb
  unfold Draw
  by_cases hp : game.playerTurns > 0
  · simp only [hp, if_true]
    cases hpr : inp.pressed with
    | false =>
      refine ⟨{ game with enemyTurns := 2 }, rfl, h, ?_⟩
      exact ⟨h1, h2, (by decide : (0 : Int) ≤ 2), Int.le_refl 2⟩
    | true =>
      obtain ⟨g, b, hg, hwf, -, -, hcase⟩ := ClickedOnTile_spec h inp.cursorX inp.cursorY
      refine ⟨{ g with enemyTurns := 2 }, ?_, hwf, ?_⟩
      · simp only [if_true, hg, ok_bind, pure_eq_ok]
      · have hpt : g.playerTurns = game.playerTurns ∨ g.playerTurns = game.playerTurns - 1 := by
          rcases hcase with rfl | ⟨p, -, -, -, -, e⟩
          · exact Or.inl rfl
          · exact Or.inr e
        refine ⟨?_, ?_, (by decide : (0 : Int) ≤ 2), Int.le_refl 2⟩
        · show 0 ≤ g.playerTurns
          omega
        · show g.playerTurns ≤ 2
          omega
  · simp only [hp, if_false]
    by_cases he : game.enemyTurns > 0
    · simp only [he, if_true]
      by_cases hc : Int.tmod game.count 15 = 1
      · obtain ⟨g, hg, hwf, -, hpt, het, -⟩ := DoEnemyMove_spec h inp.rnd
        refine ⟨{ g with enemyTurns := g.enemyTurns - 1 }, ?_, hwf, ?_⟩
        · simp only [hc, if_true, hg, ok_bind, pure_eq_ok]
        · refine ⟨?_, ?_, ?_, ?_⟩
          · show 0 ≤ g.playerTurns
            omega
          · show g.playerTurns ≤ 2
            omega
          · show 0 ≤ g.enemyTurns - 1
            omega
          · show g.enemyTurns - 1 ≤ 2
            omega
      · refine ⟨game, ?_, h, h1, h2, h3, h4⟩
        simp only [hc, if_false, pure_eq_ok]
    · refine ⟨{ game with playerTurns := 2 }, ?_, h, ?_⟩
      · simp only [he, if_false, pure_eq_ok]
      · exact ⟨(by decide : (0 : Int) ≤ 2), Int.le_refl 2, h3, h4⟩

/-- One `Update` or `Draw` call from an initialised, well-formed state with
counters in range returns such a state. -/
theorem step_preserves {w : World} (hi : w.initialized = true) (h : WellFormed w.game)
    (hb : countersInRange w.game) (e : Event) :
    ∃ w', step w e = .ok w' ∧ w'.initialized = true ∧ WellFormed w'.game ∧
      countersInRange w'.game := by
  cases e with
  | update =>
    refine ⟨{ initialized := true, game := { w.game with count := incr64 w.game.count } },
      ?_, rfl, h, hb⟩
    simp only [step, Update, hi, Bool.not_true, Bool.false_eq_true, if_false, ok_bind, pure_eq_ok]
  | draw inp =>
    obtain ⟨g, hg, hwf, hb'⟩ := Draw_preserves h hb inp
    refine ⟨{ w with game := g }, ?_, hi, hwf, hb'⟩
    simp only [step, hg, ok_bind, pure_eq_ok]

theorem run_preserves (events : List Event) :
    ∀ w : World, w.initialized = true → WellFormed w.game → countersInRange w.game →
      ∃ w', run w events = .ok w' ∧ w'.initialized = true ∧ WellFormed w'.game ∧
        countersInRange w'.game := by
  induction events with
  | nil => intro w hi h hb; exact ⟨w, rfl, hi, h, hb⟩
  | cons e rest ih =>
    intro w hi h hb
    obtain ⟨w1, hs, hi1, h1, hb1⟩ := step_preserves hi h hb e
    obtain ⟨w2, hr, hi2, h2, hb2⟩ := ih w1 hi1 h1 hb1
    refine ⟨w2, ?_, hi2, h2, hb2⟩
    simp only [run, hs, ok_bind, hr]

/-- The first `Update` of the program, on the empty game with `initialized`
still false, runs `InitGame` and then does what `Update` does from `initWorld`. -/
theorem first_update :
    InitGame emptyGame = .ok initWorld.game ∧
      step { initialized := false, game := emptyGame } .update = step initWorld .update :=
  ⟨rfl, rfl⟩

/-- C10. Every sequence of `Update` and `Draw` calls from the InitGame state
(the state `InitGame` returns on the empty game), with arbitrary click inputs
and random draws, runs without failure and ends in a state with
`0 <= playerTurns <= 2` and `0 <= enemyTurns <= 2`. -/
theorem turn_counters_bounded (events : List Event) :
    InitGame emptyGame = .ok initWorld.game ∧
    ∃ w, run initWorld events = .ok w ∧
      0 ≤ w.game.playerTurns ∧ w.game.playerTurns ≤ 2 ∧
      0 ≤ w.game.enemyTurns ∧ w.game.enemyTurns ≤ 2 := by
  obtain ⟨w, hr, -, -, hb⟩ := run_preserves events initWorld rfl (by decide) (by decide)
  exact ⟨rfl, w, hr, hb⟩

/-! ## The opponent's turn (C11 to C13, C16, C17) -/

/-- C11. In every state with `playerTurns = 0` and `enemyTurns = 0` the next
`Draw` step returns, sets `playerTurns` to 2 and changes no tile (nor anything
else). -/
theorem draw_hands_turn_to_player (game : Game) (inp : Input)
    (hp : game.playerTurns = 0) (he : game.enemyTurns = 0) :
    ∃ g, Draw game inp = .ok g ∧ g.playerTurns = 2 ∧ g.fieldTiles = game.fieldTiles ∧
      (∀ x y : Int, occupant g x y = occupant game x y) ∧
      g = { game with playerTurns := 2 } := by
  have h1 : ¬ game.playerTurns > 0 := by omega
  have h2 : ¬ game.enemyTurns > 0 := by omega
  refine ⟨{ game with playerTurns := 2 }, ?_, rfl, rfl, fun _ _ => rfl, rfl⟩
  unfold Draw
  rw [if_neg h1, if_neg h2]
  rfl

theorem draw_hands_turn_to_player_witness :
    turnOver.playerTurns = 0 ∧ turnOver.enemyTurns = 0 ∧
    ∃ g, Draw turnOver { pressed := true, cursorX := 80, cursorY := 150, rnd := 7 } = .ok g ∧
      g.playerTurns = 2 ∧ g.fieldTiles = turnOver.fieldTiles ∧
      (∀ x y : Int, occupant g x y = occupant turnOver x y) ∧
      g = { turnOver with playerTurns := 2 } :=
  ⟨rfl, rfl,
    draw_hands_turn_to_player turnOver { pressed := true, cursorX := 80, cursorY := 150, rnd := 7 }
      rfl rfl⟩

/-- C16. The opponent acts only on trigger ticks: in every state with
`playerTurns = 0` and `enemyTurns > 0` whose tick counter has
`count % 15 != 1`, the `Draw` step returns the game as it was: every tile,
`playerTurns` and `enemyTurns` are unchanged. -/
theorem draw_idle_between_triggers (game : Game) (inp : Input)
    (hp : game.playerTurns = 0) (he : game.enemyTurns > 0) (hc : Int.tmod game.count 15 ≠ 1) :
    ∃ g, Draw game inp = .ok g ∧ g.fieldTiles = game.fieldTiles ∧
      (∀ x y : Int, occupant g x y = occupant game x y) ∧
      g.playerTurns = game.playerTurns ∧ g.enemyTurns = game.enemyTurns := by
  have h1 : ¬ game.playerTurns > 0 := by omega
  refine ⟨game, ?_, rfl, fun _ _ => rfl, rfl, rfl⟩
  unfold Draw
  rw [if_neg h1, if_pos he, if_neg hc]
  rfl

theorem draw_idle_between_triggers_witness :
    startGame.playerTurns = 0 ∧ startGame.enemyTurns > 0 ∧ Int.tmod startGame.count 15 ≠ 1 ∧
    ∃ g, Draw startGame { pressed := true, cursorX := 80, cursorY := 150, rnd := 2 } = .ok g ∧
      g.fieldTiles = startGame.fieldTiles ∧
      (∀ x y : Int, occupant g x y = occupant startGame x y) ∧
      g.playerTurns = startGame.playerTurns ∧ g.enemyTurns = startGame.enemyTurns :=
  ⟨rfl, by decide, by decide,
    draw_idle_between_triggers startGame { pressed := true, cursorX := 80, cursorY := 150, rnd := 2 }
      rfl (by decide) (by decide)⟩

/-- C17. Every `Draw` step that starts with `playerTurns > 0` and ends with
`playerTurns = 0` ends with `enemyTurns = 2`, whatever `enemyTurns` was
before. -/
theorem opponent_gets_full_allowance (game g : Game) (inp : Input)
    (hd : Draw game inp = .ok g) (hp : game.playerTurns > 0) (_hz : g.playerTurns = 0) :
    g.enemyTurns = 2 := by
  unfold Draw at hd
  rw [if_pos hp] at hd
  cases hpr : inp.pressed with
  | false =>
    rw [hpr] at hd
    cases hd
    rfl
  | true =>
    rw [hpr] at hd
    cases hc : ClickedOnTile game inp.cursorX inp.cursorY with
    | error e =>
      rw [hc] at hd
      cases hd
    | ok r =>
      rw [hc] at hd
      cases hd
      rfl

theorem opponent_gets_full_allowance_witness :
    ∃ g, Draw { startGame with playerTurns := 1, enemyTurns := 0 }
        { pressed := true, cursorX := 80, cursorY := 150, rnd := 0 } = .ok g ∧
      ({ startGame with playerTurns := 1, enemyTurns := 0 } : Game).playerTurns > 0 ∧
      g.playerTurns = 0 ∧ g.enemyTurns = 2 :=
  ⟨_, rfl, by decide, rfl,
    opponent_gets_full_allowance { startGame with playerTurns := 1, enemyTurns := 0 } _
      { pressed := true, cursorX := 80, cursorY := 150, rnd := 0 } rfl (by decide) rfl⟩

/-- C12, as the code has it. In every state with `playerTurns = 0`,
`enemyTurns > 0`, a trigger tick (`count % 15 = 1`) and an empty
`TilesPlayerOrEnemyCanGo("enemy")`, the `Draw` step performs no move (no tile
changes) and still takes one from `enemyTurns`: the decrement follows
`DoEnemyMove` whether or not it moved. -/
theorem stuck_opponent_still_pays (game : Game) (inp : Input)
    (hp : game.playerTurns = 0) (he : game.enemyTurns > 0) (hc : Int.tmod game.count 15 = 1)
    (hl : TilesPlayerOrEnemyCanGo game "enemy" = .ok []) :
    ∃ g, Draw game inp = .ok g ∧ g.fieldTiles = game.fieldTiles ∧
      (∀ x y : Int, occupant g x y = occupant game x y) ∧
      g.playerTurns = game.playerTurns ∧ g.enemyTurns = game.enemyTurns - 1 := by
  have h1 : ¬ game.playerTurns > 0 := by omega
  refine ⟨{ game with enemyTurns := game.enemyTurns - 1 }, ?_, rfl, fun _ _ => rfl, rfl, rfl⟩
  unfold Draw
  rw [if_neg h1, if_pos he, if_pos hc]
  unfold DoEnemyMove
  rw [hl]
  rfl

theorem stuck_opponent_still_pays_witness :
    fullGame.playerTurns = 0 ∧ fullGame.enemyTurns > 0 ∧ Int.tmod fullGame.count 15 = 1 ∧
    TilesPlayerOrEnemyCanGo fullGame "enemy" = .ok [] ∧
    ∃ g, Draw fullGame { pressed := false, cursorX := 0, cursorY := 0, rnd := 0 } = .ok g ∧
      g.fieldTiles = fullGame.fieldTiles ∧
      (∀ x y : Int, occupant g x y = occupant fullGame x y) ∧
      g.playerTurns = fullGame.playerTurns ∧ g.enemyTurns = fullGame.enemyTurns - 1 :=
  ⟨rfl, by decide, by decide, rfl,
    stuck_opponent_still_pays fullGame { pressed := false, cursorX := 0, cursorY := 0, rnd := 0 }
      rfl (by decide) (by decide) rfl⟩

set_option maxRecDepth 20000 in
/-- C12, counterexample. On the full board (well formed, opponent's turn with
`enemyTurns = 2`, trigger tick, no legal enemy move) the `Draw` step leaves
`enemyTurns = 1`, not 2; after the next trigger tick, 15 updates later, it is
0, and the `Draw` after that hands the turn to the player: the stuck
opponent's turn does end. -/
theorem stuck_opponent_counterexample :
    WellFormed fullGame ∧ fullGame.playerTurns = 0 ∧ fullGame.enemyTurns = 2 ∧
    Int.tmod fullGame.count 15 = 1 ∧ TilesPlayerOrEnemyCanGo fullGame "enemy" = .ok [] ∧
    (∃ g, Draw fullGame { pressed := false, cursorX := 0, cursorY := 0, rnd := 0 } = .ok g ∧
      g.enemyTurns = 1 ∧ g.enemyTurns ≠ fullGame.enemyTurns) ∧
    run { initialized := true, game := fullGame }
        ([Event.draw { pressed := false, cursorX := 0, cursorY := 0, rnd := 0 }] ++
          List.replicate 15 Event.update ++
          [Event.draw { pressed := false, cursorX := 0, cursorY := 0, rnd := 0 }, Event.update,
           Event.draw { pressed := false, cursorX := 0, cursorY := 0, rnd := 0 }]) =
      .ok { initialized := true,
            game := { fullGame with count := 17, enemyTurns := 0, playerTurns := 2 } } :=
  ⟨by decide, rfl, rfl, by decide, rfl, ⟨_, rfl, rfl, by decide⟩, by decide⟩

/-- C13. In every well-formed state with `playerTurns = 0`, `enemyTurns > 0`,
a trigger tick and a non-empty `TilesPlayerOrEnemyCanGo("enemy")`, for every
random draw the `Draw` step changes exactly one tile: the tile at the drawn
index of the returned slice, which was neutral before and is enemy afterwards;
every other tile is unchanged and `enemyTurns` drops by exactly 1. -/
theorem opponent_moves_once (game : Game) (inp : Input) (l : List TilePtr)
    (h : WellFormed game) (hp : game.playerTurns = 0) (he : game.enemyTurns > 0)
    (hc : Int.tmod game.count 15 = 1) (hl : TilesPlayerOrEnemyCanGo game "enemy" = .ok l)
    (hne : l ≠ []) :
    ∃ g p, Draw game inp = .ok g ∧ l[inp.rnd % l.length]? = some p ∧ p ∈ l ∧
      occupant game p.1 p.2 = some NeutralFrames.name ∧
      occupant g p.1 p.2 = some EnemyFrames.name ∧
      (∀ x y : Int, (x, y) ≠ p → occupant g x y = occupant game x y) ∧
      g.enemyTurns = game.enemyTurns - 1 ∧ g.playerTurns = game.playerTurns := by
  rw [tiles_eq_moveList h "enemy"] at hl
  cases hl
  have h1 : ¬ game.playerTurns > 0 := by omega
  obtain ⟨g, hg, -, -, hpt, het, hcase⟩ := DoEnemyMove_spec h inp.rnd
  rcases hcase with ⟨hnil, -⟩ | ⟨p, hidx, hmem, hocc, hrest⟩
  · exact absurd hnil hne
  · refine ⟨{ g with enemyTurns := g.enemyTurns - 1 }, p, ?_, hidx, hmem,
      ((mem_moveList_iff h "enemy" p).mp hmem).2.1, hocc, hrest, ?_, hpt⟩
    · unfold Draw
      rw [if_neg h1, if_pos he, if_pos hc, hg]
      rfl
    · show g.enemyTurns - 1 = game.enemyTurns - 1
      rw [het]

theorem opponent_moves_once_witness :
    WellFormed firstTick ∧ firstTick.playerTurns = 0 ∧ firstTick.enemyTurns > 0 ∧
    Int.tmod firstTick.count 15 = 1 ∧
    TilesPlayerOrEnemyCanGo firstTick "enemy" = .ok [(1, 0), (3, 0), (2, 1)] ∧
    ∃ g p, Draw firstTick { pressed := false, cursorX := 0, cursorY := 0, rnd := 5 } = .ok g ∧
      [((1 : Int), (0 : Int)), (3, 0), (2, 1)][5 % [((1 : Int), (0 : Int)), (3, 0), (2, 1)].length]?
        = some p ∧
      p ∈ [((1 : Int), (0 : Int)), (3, 0), (2, 1)] ∧
      occupant firstTick p.1 p.2 = some NeutralFrames.name ∧
      occupant g p.1 p.2 = some EnemyFrames.name ∧
      (∀ x y : Int, (x, y) ≠ p → occupant g x y = occupant firstTick x y) ∧
      g.enemyTurns = firstTick.enemyTurns - 1 ∧ g.playerTurns = firstTick.playerTurns :=
  ⟨by decide, rfl, by decide, by decide, rfl,
    opponent_moves_once firstTick { pressed := false, cursorX := 0, cursorY := 0, rnd := 5 }
      [(1, 0), (3, 0), (2, 1)] (by decide) rfl (by decide) (by decide) rfl (by decide)⟩

/-! ## Owned tiles stay owned (C14) -/

theorem neutral_not_owned {game : Game} {x y : Int}
    (hn : occupant game x y = some NeutralFrames.name) : ¬ owned game x y := by
  unfold owned
  rw [hn]
  decide

/-- One `Draw` step on a well-formed board returns a well-formed board on
which every owned tile has the occupant it had. -/
theorem Draw_keeps_owned {game : Game} (h : WellFormed game) (inp : Input) :
    ∃ g, Draw game inp = .ok g ∧ WellFormed g ∧
      ∀ x y : Int, owned game x y → occupant g x y = occupant game x y := by
  unfold Draw
  by_cases hp : game.playerTurns > 0
  · rw [if_pos hp]
    cases hpr : inp.pressed with
    | false => exact ⟨{ game with enemyTurns := 2 }, rfl, h, fun _ _ _ => rfl⟩
    | true =>
      obtain ⟨g, b, hg, hwf, -, -, hcase⟩ := ClickedOnTile_spec h inp.cursorX inp.cursorY
      refine ⟨{ g with enemyTurns := 2 }, ?_, hwf, ?_⟩
      · simp only [if_true, hg, ok_bind, pure_eq_ok]
      · intro x y ho
        show occupant g x y = occupant game x y
        rcases hcase with rfl | ⟨p, -, hmem, -, hrest, -⟩
        · rfl
        · by_cases e : (x, y) = p
          · subst e
            exact absurd ho (neutral_not_owned ((mem_moveList_iff h "player" _).mp hmem).2.1)
          · exact hrest x y e
  · rw [if_neg hp]
    by_cases he : game.enemyTurns > 0
    · rw [if_pos he]
      by_cases hc : Int.tmod game.count 15 = 1
      · obtain ⟨g, hg, hwf, -, -, -, hcase⟩ := DoEnemyMove_spec h inp.rnd
        refine ⟨{ g with enemyTurns := g.enemyTurns - 1 }, ?_, hwf, ?_⟩
        · simp only [hc, if_true, hg, ok_bind, pure_eq_ok]
        · intro x y ho
          show occupant g x y = occupant game x y
          rcases hcase with ⟨-, rfl⟩ | ⟨p, -, hmem, -, hrest⟩
          · rfl
          · by_cases e : (x, y) = p
            · subst e
              exact absurd ho (neutral_not_owned ((mem_moveList_iff h "enemy" _).mp hmem).2.1)
            · exact hrest x y e
      · refine ⟨game, ?_, h, fun _ _ _ => rfl⟩
        rw [if_neg hc]
        rfl
    · refine ⟨{ game with playerTurns := 2 }, ?_, h, fun _ _ _ => rfl⟩
      rw [if_neg he]
      rfl

theorem step_keeps_owned {w : World} (hi : w.initialized = true) (h : WellFormed w.game)
    (e : Event) :
    ∃ w', step w e = .ok w' ∧ w'.initialized = true ∧ WellFormed w'.game ∧
      ∀ x y : Int, owned w.game x y → occupant w'.game x y = occupant w.game x y := by
  cases e with
  | update =>
    refine ⟨{ initialized := true, game := { w.game with count := incr64 w.game.count } },
      ?_, rfl, h, fun _ _ _ => rfl⟩
    simp only [step, Update, hi, Bool.not_true, Bool.false_eq_true, if_false, ok_bind, pure_eq_ok]
  | draw inp =>
    obtain ⟨g, hg, hwf, hk⟩ := Draw_keeps_owned h inp
    refine ⟨{ w with game := g }, ?_, hi, hwf, hk⟩
    simp only [step, hg, ok_bind, pure_eq_ok]

theorem run_keeps_owned (events : List Event) :
    ∀ w : World, w.initialized = true → WellFormed w.game →
      ∃ w', run w events = .ok w' ∧ w'.initialized = true ∧ WellFormed w'.game ∧
        ∀ x y : Int, owned w.game x y → occupant w'.game x y = occupant w.game x y := by
  induction events with
  | nil => intro w hi h; exact ⟨w, rfl, hi, h, fun _ _ _ => rfl⟩
  | cons e rest ih =>
    intro w hi h
    obtain ⟨w1, hs, hi1, h1, hk1⟩ := step_keeps_owned hi h e
    obtain ⟨w2, hr, hi2, h2, hk2⟩ := ih w1 hi1 h1
    refine ⟨w2, ?_, hi2, h2, ?_⟩
    · simp only [run, hs, ok_bind, hr]
    · intro x y ho
      have e1 := hk1 x y ho
      have ho1 : owned w1.game x y := by
        unfold owned at ho ⊢
        rw [e1]
        exact ho
      rw [hk2 x y ho1, e1]

/-- C14. Occupying never vacates. On every well-formed state, every `Draw`
step (any inputs) returns and leaves each tile that was player or enemy with
the occupant it had; and so does every sequence of `Update` and `Draw` calls
of the initialised program from that state: an owned tile is never emptied or
captured. -/
theorem owned_tiles_are_kept (game : Game) (inp : Input) (events : List Event)
    (h : WellFormed game) :
    (∃ g, Draw game inp = .ok g ∧
      ∀ x y : Int, owned game x y → occupant g x y = occupant game x y) ∧
    (∃ w', run { initialized := true, game := game } events = .ok w' ∧
      ∀ x y : Int, owned game x y → occupant w'.game x y = occupant game x y) := by
  obtain ⟨g, hg, -, hk⟩ := Draw_keeps_owned h inp
  obtain ⟨w', hr, -, -, hk'⟩ := run_keeps_owned events ⟨true, game⟩ rfl h
  exact ⟨⟨g, hg, hk⟩, ⟨w', hr, hk'⟩⟩

theorem owned_tiles_are_kept_witness :
    WellFormed firstTick ∧
    (∃ g, Draw firstTick { pressed := true, cursorX := 80, cursorY := 150, rnd := 2 } = .ok g ∧
      ∀ x y : Int, owned firstTick x y → occupant g x y = occupant firstTick x y) ∧
    (∃ w', run { initialized := true, game := firstTick }
        [Event.draw { pressed := true, cursorX := 80, cursorY := 150, rnd := 2 }, Event.update]
          = .ok w' ∧
      ∀ x y : Int, owned firstTick x y → occupant w'.game x y = occupant firstTick x y) :=
  ⟨by decide,
    owned_tiles_are_kept firstTick { pressed := true, cursorX := 80, cursorY := 150, rnd := 2 }
      [Event.draw { pressed := true, cursorX := 80, cursorY := 150, rnd := 2 }, Event.update]
      (by decide)⟩

/-! ## Totality of the legal-move query (C18) -/

theorem Shaped.tileAt_inside {game : Game} (h : Shaped game) {x y : Int} (hg : inGrid x y) :
    ∃ t f, tileAt game x y = .ok (some t) ∧ t.image = some f := by
  obtain ⟨h1, h2, h3, h4⟩ := inGrid_toNat hg
  obtain ⟨hlen, hrows⟩ := h
  have hx : x.toNat < game.fieldTiles.length := by omega
  obtain ⟨hr, htiles⟩ := hrows _ (List.get_mem game.fieldTiles x.toNat hx)
  have hy : y.toNat < (game.fieldTiles.get ⟨x.toNat, hx⟩).length := by omega
  have hp := htiles _ (List.get_mem _ y.toNat hy)
  have hat : tileAt game x y = .ok ((game.fieldTiles.get ⟨x.toNat, hx⟩).get ⟨y.toNat, hy⟩) := by
    unfold tileAt
    have e1 := index_ok game.fieldTiles x.toNat hx
    rw [h3] at e1
    rw [e1]
    have e2 := index_ok (game.fieldTiles.get ⟨x.toNat, hx⟩) y.toNat hy
    rw [h4] at e2
    exact e2
  cases ht : (game.fieldTiles.get ⟨x.toNat, hx⟩).get ⟨y.toNat, hy⟩ with
  | none => rw [ht] at hp; simp [presentTile] at hp
  | some t =>
    rw [ht] at hp hat
    cases hf : t.image with
    | none => simp [presentTile, hf] at hp
    | some f => exact ⟨t, f, hat, hf⟩

theorem probe_total {game : Game} (h : Shaped game) (guard : Bool) (nx ny : Int)
    (hc : guard = true → inGrid nx ny) (moveTiles : List TilePtr) :
    ∃ l, probe guard game nx ny moveTiles = .ok l := by
  unfold probe
  cases guard with
  | false => exact ⟨moveTiles, rfl⟩
  | true =>
    obtain ⟨t, f, hat, hf⟩ := h.tileAt_inside (hc rfl)
    simp only [if_true, hat, ok_bind, imageName, hf, pure_eq_ok]
    by_cases hn : f.name = NeutralFrames.name
    · exact ⟨_, by rw [if_pos hn]⟩
    · exact ⟨_, by rw [if_neg hn]⟩

theorem visit_total {game : Game} (h : Shaped game) (name : String) {x y : Nat}
    (hx : x < fieldWidth) (hy : y < fieldHeight) {tile : Option FieldTile}
    (ht : presentTile tile = true) (moveTiles : List TilePtr) :
    ∃ l, visit game name x y tile moveTiles = .ok l := by
  cases tile with
  | none => simp [presentTile] at ht
  | some t =>
    cases hf : t.image with
    | none => simp [presentTile, hf] at ht
    | some f =>
      unfold visit
      simp only [imageName, hf, ok_bind, pure_eq_ok]
      by_cases hn : f.name = name
      · rw [if_pos hn]
        obtain ⟨m1, e1⟩ := probe_total h (decide ((x : Int) - 1 ≥ 0)) ((x : Int) - 1) y
          (by unfold inGrid; simp only [decide_eq_true_eq]; omega) moveTiles
        obtain ⟨m2, e2⟩ := probe_total h (decide ((x : Int) + 1 < (fieldWidth : Int)))
          ((x : Int) + 1) y (by unfold inGrid; simp only [decide_eq_true_eq]; omega) m1
        obtain ⟨m3, e3⟩ := probe_total h (decide ((y : Int) - 1 ≥ 0)) x ((y : Int) - 1)
          (by unfold inGrid; simp only [decide_eq_true_eq]; omega) m2
        obtain ⟨m4, e4⟩ := probe_total h (decide ((y : Int) + 1 < (fieldHeight : Int))) x
          ((y : Int) + 1) (by unfold inGrid; simp only [decide_eq_true_eq]; omega) m3
        exact ⟨m4, by simp only [e1, e2, e3, e4, ok_bind]⟩
      · exact ⟨moveTiles, by rw [if_neg hn]⟩

theorem tilesRow_total (game : Game) (name : String) (x : Int) :
    ∀ (rest : List (Option FieldTile)) (y : Nat) (moveTiles : List TilePtr),
      (∀ (i : Nat) (hi : i < rest.length) (m : List TilePtr),
        ∃ l, visit game name x ((y + i : Nat) : Int) (rest.get ⟨i, hi⟩) m = .ok l) →
      ∃ l, tilesRow game name x (y : Int) rest moveTiles = .ok l := by
  intro rest
  induction rest with
  | nil => intro y moveTiles _; exact ⟨moveTiles, rfl⟩
  | cons tile rest ih =>
    intro y moveTiles hv
    obtain ⟨m, h0⟩ := hv 0 (by simp) moveTiles
    simp only [Nat.add_zero, List.get_eq_getElem, List.getElem_cons_zero] at h0
    obtain ⟨l, hrest⟩ := ih (y + 1) m (by
      intro i hi m'
      have := hv (i + 1) (by simp; omega) m'
      simp only [List.get_eq_getElem, List.getElem_cons_succ] at this
      have e : y + 1 + i = y + (i + 1) := by omega
      rw [e]
      simpa using this)
    have e : ((y : Nat) : Int) + 1 = ((y + 1 : Nat) : Int) := by push_cast; ring
    exact ⟨l, by simp only [tilesRow, h0, ok_bind, e, hrest]⟩

theorem tilesCols_total (game : Game) (name : String) :
    ∀ (rest : List (List (Option FieldTile))) (x : Nat) (moveTiles : List TilePtr),
      (∀ (i : Nat) (hi : i < rest.length) (m : List TilePtr),
        ∃ l, tilesRow game name ((x + i : Nat) : Int) 0 (rest.get ⟨i, hi⟩) m = .ok l) →
      ∃ l, tilesCols game name (x : Int) rest moveTiles = .ok l := by
  intro rest
  induction rest with
  | nil => intro x moveTiles _; exact ⟨moveTiles, rfl⟩
  | cons row rest ih =>
    intro x moveTiles hv
    obtain ⟨m, h0⟩ := hv 0 (by simp) moveTiles
    simp only [Nat.add_zero, List.get_eq_getElem, List.getElem_cons_zero] at h0
    obtain ⟨l, hrest⟩ := ih (x + 1) m (by
      intro i hi m'
      have := hv (i + 1) (by simp; omega) m'
      simp only [List.get_eq_getElem, List.getElem_cons_succ] at this
      have e : x + 1 + i = x + (i + 1) := by omega
      rw [e]
      simpa using this)
    have e : ((x : Nat) : Int) + 1 = ((x + 1 : Nat) : Int) := by push_cast; ring
    exact ⟨l, by simp only [tilesCols, h0, ok_bind, e, hrest]⟩

/-- C18. `TilesPlayerOrEnemyCanGo` is total on boards of the right shape: when
`fieldTiles` has exactly 5 columns of exactly 6 non-nil tiles with non-nil
image, then for every side name the call returns a slice; no index expression
it evaluates is out of range and it dereferences no nil pointer. -/
theorem tiles_total (game : Game) (name : String) (h : Shaped game) :
    ∃ l, TilesPlayerOrEnemyCanGo game name = .ok l ∧
      TilesPlayerOrEnemyCanGo game name ≠ .error .indexOutOfRange := by
  have key : ∃ l, TilesPlayerOrEnemyCanGo game name = .ok l := by
    unfold TilesPlayerOrEnemyCanGo
    have := tilesCols_total game name game.fieldTiles 0 [] (by
      intro i hi m
      have hi5 : i < fieldWidth := by have := h.1; omega
      obtain ⟨hr, htiles⟩ := h.2 _ (List.get_mem game.fieldTiles i hi)
      have := tilesRow_total game name ((0 + i : Nat) : Int) (game.fieldTiles.get ⟨i, hi⟩) 0 m (by
        intro j hj m'
        have hj6 : j < fieldHeight := by omega
        simp only [Nat.zero_add]
        exact visit_total h name hi5 hj6 (htiles _ (List.get_mem _ j hj)) m')
      simpa using this)
    simpa using this
  obtain ⟨l, hl⟩ := key
  refine ⟨l, hl, ?_⟩
  rw [hl]
  intro hc
  cases hc

theorem tiles_total_witness :
    Shaped wallGame ∧ ¬ WellFormed wallGame ∧
    ∃ l, TilesPlayerOrEnemyCanGo wallGame "wall" = .ok l ∧
      TilesPlayerOrEnemyCanGo wallGame "wall" ≠ .error .indexOutOfRange :=
  ⟨by decide, by decide, tiles_total wallGame "wall" (by decide)⟩

/-! ## A held mouse button (C19) -/

theorem hitAt_congr {g g' : Game} {mouseX mouseY : Int} {p : TilePtr}
    (h : tileAt g' p.1 p.2 = tileAt g p.1 p.2) : hitAt g' mouseX mouseY p = hitAt g mouseX mouseY p := by
  unfold hitAt
  rw [h]

/-- Writing an image does not move any screen rectangle. -/
theorem setImage_hitAt {game g : Game} (h : WellFormed game) {x y : Int} (hg : inGrid x y)
    (frame : FrameType) (hs : setImage game x y frame = .ok g) (mouseX mouseY : Int)
    (p : TilePtr) : hitAt g mouseX mouseY p = hitAt game mouseX mouseY p := by
  obtain ⟨h1, h2, h3, h4⟩ := inGrid_toNat hg
  obtain ⟨row, t, f, cf⟩ := h.cell h1 h2
  have hxi : index game.fieldTiles x = .ok row := by
    have := index_ok game.fieldTiles x.toNat cf.hx
    rw [h3, cf.hrow] at this
    exact this
  have hyi : index row y = .ok (some t) := by
    have := index_ok row y.toNat cf.hy
    rw [h4, cf.htile] at this
    exact this
  have hat := tileAt_set game x.toNat y.toNat row (some { t with image := some frame }) cf.hx
    cf.hrow cf.hy
  rw [h3, h4] at hat
  have hold := cf.hat
  rw [h3, h4] at hold
  unfold setImage at hs
  simp only [hxi, hyi, ok_bind, pure_eq_ok] at hs
  cases hs
  unfold hitAt
  rw [hat]
  by_cases e : p.1 = x ∧ p.2 = y
  · rw [if_pos e, e.1, e.2, hold]
    rfl
  · rw [if_neg e]

theorem clickTile_hitAt {game g : Game} (h : WellFormed game) {p : TilePtr}
    (hp : inGrid p.1 p.2) (hc : clickTile game (moveList game "player") p = .ok g)
    (mouseX mouseY : Int) (q : TilePtr) :
    hitAt g mouseX mouseY q = hitAt game mouseX mouseY q := by
  have hcan := CanGo_eq h hp (moveList game "player")
    (fun r hr => ((mem_moveList_iff h "player" r).mp hr).1)
  unfold clickTile at hc
  rw [hcan] at hc
  by_cases hm : p ∈ moveList game "player"
  · obtain ⟨g1, hset, -⟩ := setImage_spec h hp PlayerFrames (Or.inr (Or.inl rfl))
    simp only [hm, decide_True, ok_bind, if_true, hset, pure_eq_ok] at hc
    cases hc
    exact setImage_hitAt h hp PlayerFrames hset mouseX mouseY q
  · simp only [hm, decide_False, ok_bind, pure_eq_ok] at hc
    cases hc
    rfl

theorem player_ne_neutral : PlayerFrames.name ≠ NeutralFrames.name := by decide

/-- C19. A held mouse button cannot take two moves on one spot: on every
well-formed game state and for every mouse position, `ClickedOnTile` returns,
and a second call with the same position on the game it leaves returns that
game unchanged (same board, same `playerTurns`). -/
theorem second_click_is_noop (game : Game) (mouseX mouseY : Int) (h : WellFormed game) :
    ∃ g b b', ClickedOnTile game mouseX mouseY = .ok (g, b) ∧
      ClickedOnTile g mouseX mouseY = .ok (g, b') := by
  cases hr : resolveClick game mouseX mouseY with
  | none =>
    refine ⟨game, false, false, ?_, ?_⟩ <;>
    · rw [clicked_eq h, hr]
  | some p =>
    have hp := resolveClick_inGrid hr
    obtain ⟨g, hg, hwf, -, -, hcase⟩ := clickTile_spec h hp
    have hres : resolveClick g mouseX mouseY = some p := by
      have hfun : hitAt g mouseX mouseY = hitAt game mouseX mouseY :=
        funext fun q => clickTile_hitAt h hp hg mouseX mouseY q
      unfold resolveClick at hr ⊢
      rw [hfun]
      exact hr
    have hfirst : ClickedOnTile game mouseX mouseY = .ok (g, true) := by
      rw [clicked_eq h, hr]
      simp only [hg]
      rfl
    refine ⟨g, true, true, hfirst, ?_⟩
    obtain ⟨g2, hg2, -, -, -, hcase2⟩ := clickTile_spec hwf hp
    have hsame : g2 = g := by
      rcases hcase2 with ⟨-, e⟩ | ⟨hin2, -⟩
      · exact e
      · rcases hcase with ⟨hout, e⟩ | ⟨-, hocc, -, -⟩
        · subst e
          exact absurd hin2 hout
        · have hn := ((mem_moveList_iff hwf "player" p).mp hin2).2.1
          rw [hocc] at hn
          exact absurd (Option.some.inj hn) player_ne_neutral
    subst hsame
    rw [clicked_eq hwf, hres]
    simp only [hg2]
    rfl

theorem second_click_is_noop_witness :
    WellFormed playerToMove ∧
    ∃ g b b', ClickedOnTile playerToMove 80 150 = .ok (g, b) ∧
      ClickedOnTile g 80 150 = .ok (g, b') :=
  ⟨by decide, second_click_is_noop playerToMove 80 150 (by decide)⟩

/-! ## A stuck player (C20) -/

/-- One step from a state where the player is to move and has no legal move
changes at most the tick counter and `enemyTurns`. -/
theorem step_stuck_player {w : World} (hi : w.initialized = true) (h : WellFormed w.game)
    (hp : w.game.playerTurns > 0) (hl : moveList w.game "player" = []) (e : Event) :
    ∃ c t, step w e =
      .ok { initialized := true, game := { w.game with count := c, enemyTurns := t } } := by
  cases e with
  | update =>
    refine ⟨incr64 w.game.count, w.game.enemyTurns, ?_⟩
    simp only [step, Update, hi, Bool.not_true, Bool.false_eq_true, if_false, ok_bind, pure_eq_ok]
  | draw inp =>
    refine ⟨w.game.count, 2, ?_⟩
    simp only [step, Draw]
    rw [if_pos hp]
    cases hpr : inp.pressed with
    | false =>
      simp only [Bool.false_eq_true, if_false, ok_bind, pure_eq_ok, hi]
    | true =>
      obtain ⟨g, b, hg, -, -, -, hcase⟩ := ClickedOnTile_spec h inp.cursorX inp.cursorY
      have hsame : g = w.game := by
        rcases hcase with e | ⟨p, -, hmem, -⟩
        · exact e
        · rw [hl] at hmem
          cases hmem
      subst hsame
      simp only [if_true, hg, ok_bind, pure_eq_ok, hi]

theorem run_stuck_player (events : List Event) :
    ∀ w : World, w.initialized = true → WellFormed w.game → w.game.playerTurns > 0 →
      moveList w.game "player" = [] →
      ∃ c t, run w events =
        .ok { initialized := true, game := { w.game with count := c, enemyTurns := t } } := by
  induction events with
  | nil =>
    intro w hi _ _ _
    refine ⟨w.game.count, w.game.enemyTurns, ?_⟩
    cases w
    simp only [run, pure_eq_ok, Except.ok.injEq, World.mk.injEq, and_true]
    exact hi
  | cons e rest ih =>
    intro w hi h hp hl
    obtain ⟨c, t, hs⟩ := step_stuck_player hi h hp hl e
    obtain ⟨c', t', hr⟩ :=
      ih ⟨true, { w.game with count := c, enemyTurns := t }⟩ rfl h hp hl
    exact ⟨c', t', by simp only [run, hs, ok_bind, hr]⟩

/-- C20. A stuck player stalls the game for good: from every well-formed state
with `playerTurns > 0` and an empty `TilesPlayerOrEnemyCanGo("player")`, every
sequence of `Update` and `Draw` calls of the initialised program (any clicks,
any random draws) runs and leaves the board, every tile's occupant and
`playerTurns` as they were, so no tile ever becomes enemy again. -/
theorem stuck_player_stalls (game : Game) (events : List Event)
    (h : WellFormed game) (hp : game.playerTurns > 0)
    (hl : TilesPlayerOrEnemyCanGo game "player" = .ok []) :
    ∃ w', run { initialized := true, game := game } events = .ok w' ∧
      w'.game.fieldTiles = game.fieldTiles ∧
      (∀ x y : Int, occupant w'.game x y = occupant game x y) ∧
      w'.game.playerTurns = game.playerTurns := by
  rw [tiles_eq_moveList h "player"] at hl
  have hnil : moveList game "player" = [] := Except.ok.inj hl
  obtain ⟨c, t, hr⟩ := run_stuck_player events ⟨true, game⟩ rfl h hp hnil
  exact ⟨_, hr, rfl, fun _ _ => rfl, rfl⟩

theorem stuck_player_stalls_witness :
    WellFormed stuckPlayer ∧ stuckPlayer.playerTurns > 0 ∧
    TilesPlayerOrEnemyCanGo stuckPlayer "player" = .ok [] ∧
    ∃ w', run { initialized := true, game := stuckPlayer }
        [Event.update, Event.draw { pressed := true, cursorX := 80, cursorY := 150, rnd := 1 }]
          = .ok w' ∧
      w'.game.fieldTiles = stuckPlayer.fieldTiles ∧
      (∀ x y : Int, occupant w'.game x y = occupant stuckPlayer x y) ∧
      w'.game.playerTurns = stuckPlayer.playerTurns :=
  ⟨by decide, by decide, rfl,
    stuck_player_stalls stuckPlayer
      [Event.update, Event.draw { pressed := true, cursorX := 80, cursorY := 150, rnd := 1 }]
      (by decide) (by decide) rfl⟩

/-! ## The first turn (C15) -/

theorem trace_total (events : List Event) :
    ∀ w : World, w.initialized = true → WellFormed w.game →
      ∃ ws, trace w events = .ok (w :: ws) := by
  induction events with
  | nil => intro w _ _; exact ⟨[], rfl⟩
  | cons e rest ih =>
    intro w hi h
    obtain ⟨w1, hs, hi1, h1, -⟩ := step_keeps_owned hi h e
    obtain ⟨ws, ht⟩ := ih w1 hi1 h1
    exact ⟨w1 :: ws, by simp only [trace, hs, ok_bind, ht, pure_eq_ok]⟩

/-- One call during the opponent's turn: the player's counter stays 0,
`enemyTurns` drops by one exactly when a trigger tick is consumed, and no tile
becomes player. -/
theorem step_opponent_turn {w : World} (hi : w.initialized = true) (h : WellFormed w.game)
    (hp : w.game.playerTurns = 0) (he : w.game.enemyTurns > 0) (e : Event) :
    ∃ w', step w e = .ok w' ∧ w'.initialized = true ∧ WellFormed w'.game ∧
      w'.game.playerTurns = 0 ∧
      w'.game.enemyTurns = w.game.enemyTurns - (if consumesTick w e then 1 else 0) ∧
      ∀ x y : Int, occupant w'.game x y = some PlayerFrames.name →
        occupant w.game x y = some PlayerFrames.name := by
  cases e with
  | update =>
    refine ⟨{ initialized := true, game := { w.game with count := incr64 w.game.count } },
      ?_, rfl, h, hp, ?_, fun _ _ ho => ho⟩
    · simp only [step, Update, hi, Bool.not_true, Bool.false_eq_true, if_false, ok_bind,
        pure_eq_ok]
    · show w.game.enemyTurns = w.game.enemyTurns - (if consumesTick w Event.update then 1 else 0)
      simp [consumesTick]
  | draw inp =>
    have h1 : ¬ w.game.playerTurns > 0 := by omega
    by_cases hc : Int.tmod w.game.count 15 = 1
    · have htick : consumesTick w (Event.draw inp) = true := by
        simp only [consumesTick, decide_eq_true_eq]
        exact ⟨h1, he, hc⟩
      obtain ⟨g, hg, hwf, -, hpt, het, hcase⟩ := DoEnemyMove_spec h inp.rnd
      refine ⟨{ w with game := { g with enemyTurns := g.enemyTurns - 1 } }, ?_, hi, hwf, ?_, ?_, ?_⟩
      · simp only [step, Draw]
        rw [if_neg h1, if_pos he, if_pos hc]
        simp only [hg, ok_bind, pure_eq_ok]
      · show g.playerTurns = 0
        rw [hpt, hp]
      · show g.enemyTurns - 1 = w.game.enemyTurns - (if consumesTick w (Event.draw inp) then 1 else 0)
        rw [htick, het]
        rfl
      · intro x y ho
        have ho' : occupant g x y = some PlayerFrames.name := ho
        rcases hcase with ⟨-, rfl⟩ | ⟨p, -, -, hocc, hrest⟩
        · exact ho'
        · by_cases e : (x, y) = p
          · subst e
            rw [hocc] at ho'
            exact absurd (Option.some.inj ho').symm player_ne_enemy
          · rw [← hrest x y e]
            exact ho'
    · have htick : consumesTick w (Event.draw inp) = false := by
        simp only [consumesTick, decide_eq_false_iff_not]
        exact fun hh => hc hh.2.2
      refine ⟨w, ?_, hi, h, hp, ?_, fun _ _ ho => ho⟩
      · simp only [step, Draw]
        rw [if_neg h1, if_pos he, if_neg hc]
        rfl
      · rw [htick]
        simp

/-- Any run that starts in the opponent's turn: `enemyTurns` stays away from 0
exactly as long as fewer trigger ticks have been consumed than it started
with, and until then the player's counter is 0 and no tile has become player. -/
theorem run_opponent_turn (events : List Event) :
    ∀ w : World, w.initialized = true → WellFormed w.game → w.game.playerTurns = 0 →
      w.game.enemyTurns > 0 →
      ∃ ws, trace w events = .ok ws ∧
        ((∀ v ∈ ws, v.game.enemyTurns ≠ 0) ↔
          ((ticksConsumed w events : Nat) : Int) < w.game.enemyTurns) ∧
        ((∀ v ∈ ws, v.game.enemyTurns ≠ 0) →
          ∀ v ∈ ws, v.game.playerTurns = 0 ∧
            ∀ x y : Int, occupant v.game x y = some PlayerFrames.name →
              occupant w.game x y = some PlayerFrames.name) := by
  induction events with
  | nil =>
    intro w _ _ hp he
    refine ⟨[w], rfl, ?_, ?_⟩
    · simp only [List.mem_singleton, forall_eq, ticksConsumed, Nat.cast_zero]
      constructor
      · intro _; exact he
      · intro _; omega
    · intro _ v hv
      rw [List.mem_singleton] at hv
      subst hv
      exact ⟨hp, fun _ _ ho => ho⟩
  | cons e rest ih =>
    intro w hi h hp he
    obtain ⟨w1, hs, hi1, h1, hp1, he1, hk1⟩ := step_opponent_turn hi h hp he e
    have hticks : ticksConsumed w (e :: rest) =
        (if consumesTick w e then 1 else 0) + ticksConsumed w1 rest := by
      simp only [ticksConsumed, hs]
    by_cases hpos : w1.game.enemyTurns > 0
    · obtain ⟨ws1, ht1, hiff, himp⟩ := ih w1 hi1 h1 hp1 hpos
      refine ⟨w :: ws1, by simp only [trace, hs, ok_bind, ht1, pure_eq_ok], ?_, ?_⟩
      · rw [hticks]
        simp only [List.mem_cons, forall_eq_or_imp]
        constructor
        · rintro ⟨-, hall⟩
          have := hiff.mp hall
          rw [he1] at this
          split_ifs at this ⊢ <;> push_cast <;> omega
        · intro hlt
          refine ⟨by omega, hiff.mpr ?_⟩
          rw [he1]
          split_ifs at hlt ⊢ <;> push_cast at hlt ⊢ <;> omega
      · intro hall v hv
        rw [List.mem_cons] at hv
        rcases hv with rfl | hv
        · exact ⟨hp, fun _ _ ho => ho⟩
        · have hall1 : ∀ u ∈ ws1, u.game.enemyTurns ≠ 0 :=
            fun u hu => hall u (List.mem_cons_of_mem _ hu)
          obtain ⟨hv0, hvk⟩ := himp hall1 v hv
          exact ⟨hv0, fun x y ho => hk1 x y (hvk x y ho)⟩
    · obtain ⟨ws1, ht1⟩ := trace_total rest w1 hi1 h1
      have hzero : w1.game.enemyTurns = 0 := by
        split_ifs at he1 <;> omega
      have hbad : ¬ ∀ v ∈ w :: w1 :: ws1, v.game.enemyTurns ≠ 0 :=
        fun hall => hall w1 (List.mem_cons_of_mem _ (List.mem_cons_self _ _)) hzero
      refine ⟨w :: w1 :: ws1, by simp only [trace, hs, ok_bind, ht1, pure_eq_ok], ?_, ?_⟩
      · rw [hticks]
        constructor
        · intro hall
          exact absurd hall hbad
        · intro hlt
          exfalso
          split_ifs at he1 hlt <;> push_cast at hlt <;> omega
      · intro hall
        exact absurd hall hbad

/-- C15. The first turn goes to the opponent. `InitGame` yields
`playerTurns = 0` and `enemyTurns = 2`; every run from that state goes
through, `enemyTurns` has stayed away from 0 exactly when fewer than two
opponent trigger ticks have been consumed, and as long as it has, the player's
counter is 0 and no tile has become player. -/
theorem first_turn_is_opponents (events : List Event) :
    InitGame emptyGame = .ok initWorld.game ∧
    initWorld.game.playerTurns = 0 ∧ initWorld.game.enemyTurns = 2 ∧
    ∃ ws, trace initWorld events = .ok ws ∧
      ((∀ v ∈ ws, v.game.enemyTurns ≠ 0) ↔ ticksConsumed initWorld events < 2) ∧
      ((∀ v ∈ ws, v.game.enemyTurns ≠ 0) →
        ∀ v ∈ ws, v.game.playerTurns = 0 ∧
          ∀ x y : Int, occupant v.game x y = some PlayerFrames.name →
            occupant initWorld.game x y = some PlayerFrames.name) := by
  obtain ⟨ws, ht, hiff, himp⟩ :=
    run_opponent_turn events initWorld rfl (by decide) rfl (by decide)
  refine ⟨rfl, rfl, rfl, ws, ht, ?_, himp⟩
  rw [hiff]
  have e2 : initWorld.game.enemyTurns = 2 := rfl
  rw [e2]
  omega

end VirGame
